import Mathlib

/-!
# Verification of the crawl-and-extract pipeline (`office_scraper.py` / `simple_scraper.py`)

This file gives a shallow embedding of the core functions of the scraper
repository and proves / refutes the frozen claims about them.

Conventions:
* Python strings are modelled as `String` / `List Char`; all inputs of
  interest are ASCII, so Python's `\s` character class is modelled by the
  six ASCII whitespace characters.
* `re.sub(pat, '', text)` for the concrete patterns used by `clean_text`
  is modelled by a left-to-right scanner (`scanSubF`): at each position the
  engine either finds a (greedy, leftmost) match — whose length is computed
  by a `...MatchLen` function — deletes it and resumes after it, or keeps
  the character and moves one position right.  The scanner carries a fuel
  argument (initialised with the length of the list) so that it is
  structurally recursive and kernel-reducible.
* Fallible Python code (`raise` / `try`) is modelled with `Option` or
  explicit outcome types.
-/

namespace Scraper

/-- ASCII whitespace, the characters matched by `\s` on the ASCII plane
(space, tab, newline, carriage return, vertical tab, form feed). -/
def wsChar (c : Char) : Bool :=
  c = ' ' || c = '\t' || c = '\n' || c = '\r' || c = '\x0b' || c = '\x0c'

/-- `\S` : non-whitespace. -/
def nonWs (c : Char) : Bool := !wsChar c

/-! ## `clean_text`  (office_scraper.py lines 308–325, simple_scraper.py 102–119)

```python
def clean_text(text):
    text = re.sub(r'https?://\S+', '', text)
    text = re.sub(r'\S+@\S+\.\S+', '', text)
    text = re.sub(r'None', '', text)
    text = re.sub(r'\s+', ' ', text)
    text = re.sub(r'\S{50,}', '', text)
    return text.strip()
```
-/

/-- Length of the (unique, greedy) match of `https?://\S+` at the head of
`l`, if any.  After the literal `http://` or `https://` the greedy `\S+`
extends to the end of the current non-whitespace run and must be
non-empty. -/
def urlMatchLen (l : List Char) : Option Nat :=
  match l with
  | 'h' :: 't' :: 't' :: 'p' :: 's' :: ':' :: '/' :: '/' :: rest =>
      if (rest.takeWhile nonWs).length = 0 then none
      else some (8 + (rest.takeWhile nonWs).length)
  | 'h' :: 't' :: 't' :: 'p' :: ':' :: '/' :: '/' :: rest =>
      if (rest.takeWhile nonWs).length = 0 then none
      else some (7 + (rest.takeWhile nonWs).length)
  | _ => none

/-- Configuration check for the part of an email match after the `'@'`:
the remaining characters of the run must contain a `'.'` that is neither
the first character nor the last one (`\S+\.\S+`). -/
def dotCfg (rest : List Char) : Bool :=
  ((rest.drop 1).dropLast).contains '.'

/-- Is there an `'@'` somewhere in `l` whose suffix admits `\S+\.\S+`? -/
def atThenDot : List Char → Bool
  | [] => false
  | c :: rest => (c = '@' && dotCfg rest) || atThenDot rest

/-- Does a maximal non-whitespace run `r` match `\S+@\S+\.\S+` as a whole?
This needs an `'@'` at position `≥ 1` followed (with at least one
character in between) by a `'.'` that has at least one character after
it. -/
def emailRun (r : List Char) : Bool :=
  match r with
  | [] => false
  | _ :: t => atThenDot t

/-- Length of the match of `\S+@\S+\.\S+` at the head of `l`, if any.
Because the leading and trailing `\S+` are greedy, a successful match
starting inside a non-whitespace run always covers the whole run. -/
def emailMatchLen (l : List Char) : Option Nat :=
  let r := l.takeWhile nonWs
  if emailRun r then some r.length else none

/-- Length of the match of the literal `None` at the head of `l`. -/
def noneMatchLen (l : List Char) : Option Nat :=
  match l with
  | 'N' :: 'o' :: 'n' :: 'e' :: _ => some 4
  | _ => none

/-- Length of the match of `\S{50,}` at the head of `l`: the greedy
quantifier takes the whole non-whitespace run whenever it has at least 50
characters. -/
def longMatchLen (l : List Char) : Option Nat :=
  let r := l.takeWhile nonWs
  if 50 ≤ r.length then some r.length else none

/-- Generic model of `re.sub(pat, '', text)`: scan left to right, delete
each leftmost match and resume after it.  `fuel` is initialised with the
length of the list; every step consumes at least one character for the
match functions above, so the fuel never runs out. -/
def scanSubF (m : List Char → Option Nat) : Nat → List Char → List Char
  | 0, _ => []
  | _, [] => []
  | fuel + 1, c :: cs =>
    match m (c :: cs) with
    | some n => scanSubF m fuel ((c :: cs).drop n)
    | none => c :: scanSubF m fuel cs

/-- `re.sub(pat, '', l)` with enough fuel. -/
def scanSub (m : List Char → Option Nat) (l : List Char) : List Char :=
  scanSubF m l.length l

/-- Model of `re.sub(r'\s+', ' ', text)`: every maximal whitespace run is
replaced by a single space.  A whitespace character followed by another
whitespace character is dropped; the last character of a whitespace run
is emitted as `' '`. -/
def wsCollapse : List Char → List Char
  | [] => []
  | [c] => if wsChar c then [' '] else [c]
  | a :: b :: rest =>
      if wsChar a && wsChar b then wsCollapse (b :: rest)
      else (if wsChar a then ' ' else a) :: wsCollapse (b :: rest)

/-- Python `str.strip()`: remove leading and trailing whitespace. -/
def stripList (l : List Char) : List Char :=
  (l.dropWhile (wsChar ·)).rdropWhile (wsChar ·)

/-- `clean_text` on character lists: the five substitutions in source
order, then `strip`. -/
def cleanList (l : List Char) : List Char :=
  stripList (scanSub longMatchLen
    (wsCollapse (scanSub noneMatchLen
      (scanSub emailMatchLen (scanSub urlMatchLen l)))))

/-- `clean_text` (office_scraper.py line 308 / simple_scraper.py line 102). -/
def clean_text (s : String) : String := ⟨cleanList s.data⟩

/-! ## `urllib.parse` embedding

`is_valid_url` and `normalize_url` delegate to CPython's
`urllib.parse.urlparse` / `urljoin`; those library routines are embedded
here (following the CPython implementation: scheme split at the first
`':'`, `//`-netloc up to the first of `/?#`, fragment split at the first
`'#'`, query at the first `'?'`, `;`-params for schemes using them, and
the relative-reference resolution of `urljoin` with `.`/`..` segment
handling).  A `ValueError` (mismatched `[`/`]` in the netloc) is modelled
by `none`. -/

/-- Characters allowed in a URL scheme after the first one. -/
def schemeChar (c : Char) : Bool := c.isAlpha || c.isDigit || c = '+' || c = '-' || c = '.'

/-- CPython removes tab, CR and LF anywhere in the URL before splitting. -/
def removeUnsafe (l : List Char) : List Char :=
  l.filter (fun c => !(c = '\t' || c = '\r' || c = '\n'))

/-- Leading WHATWG C0-control-or-space characters are stripped. -/
def c0OrSpace (c : Char) : Bool := c.val ≤ 0x20

/-- Split at the first occurrence of `ch`: the part before it and, when
it occurs, the part after it. -/
def splitFirst (ch : Char) : List Char → List Char × Option (List Char)
  | [] => ([], none)
  | c :: cs =>
    if c = ch then ([], some cs)
    else
      let r := splitFirst ch cs
      (c :: r.1, r.2)

/-- The characters ending the netloc portion. -/
def netlocDelim (c : Char) : Bool := c = '/' || c = '?' || c = '#'

structure SplitC where
  scheme : List Char
  netloc : List Char
  path : List Char
  query : List Char
  fragment : List Char
deriving DecidableEq

/-- The scheme-detection step of `urlsplit`: a scheme prefix is present
when there is a `':'` at position `i > 0`, the first character is an
ASCII letter and the characters before the `':'` are scheme characters;
the scheme is lowercased. -/
def detectScheme (url : List Char) : Option (List Char × List Char) :=
  match splitFirst ':' url with
  | (c :: cs, some after) =>
      if c.isAlpha && cs.all schemeChar then some ((c :: cs).map Char.toLower, after)
      else none
  | _ => none

/-- `urllib.parse.urlsplit(url, scheme=d)` (allow_fragments = True;
bracketed-host content validation and the netloc NFKC check are not
modelled — no input considered here contains brackets or non-ASCII
netloc characters). -/
def startsSlashSlash : List Char → Bool
  | '/' :: '/' :: _ => true
  | _ => false

/-- The `_splitnetloc` step: when the remaining URL starts with `//`, the
netloc extends up to the first of `/?#`. -/
def splitNetloc (rest : List Char) : List Char × List Char :=
  if startsSlashSlash rest then
    ((rest.drop 2).takeWhile (fun c => !netlocDelim c),
     (rest.drop 2).dropWhile (fun c => !netlocDelim c))
  else ([], rest)

/-- The scheme/rest selection: the detected scheme, or the supplied
default. -/
def schemeRest (url1 d : List Char) : List Char × List Char :=
  match detectScheme url1 with
  | some p => p
  | none => (d, url1)

def urlsplitC (url0 d : List Char) : Option SplitC :=
  let url1 := removeUnsafe (url0.dropWhile c0OrSpace)
  let sr := schemeRest url1 d
  let nl := splitNetloc sr.2
  if (nl.1.contains '[' && !nl.1.contains ']') ||
      (nl.1.contains ']' && !nl.1.contains '[') then none
  else
    let fsp := splitFirst '#' nl.2
    let qsp := splitFirst '?' fsp.1
    some ⟨sr.1, nl.1, qsp.1, qsp.2.getD [], fsp.2.getD []⟩

/-- Split at the last occurrence of `ch` (part before, part after), when
it occurs. -/
def splitLast (ch : Char) (l : List Char) : Option (List Char × List Char) :=
  match splitFirst ch l.reverse with
  | (before, some after) => some (after.reverse, before.reverse)
  | (_, none) => none

/-- `urllib.parse._splitparams`: split `;params` off the last path
segment. -/
def splitParams (path : List Char) : List Char × List Char :=
  match splitLast '/' path with
  | some (a, b) =>
    match splitFirst ';' b with
    | (b1, some b2) => (a ++ '/' :: b1, b2)
    | (_, none) => (path, [])
  | none =>
    match splitFirst ';' path with
    | (p1, some p2) => (p1, p2)
    | (_, none) => (path, [])

structure ParseC where
  scheme : List Char
  netloc : List Char
  path : List Char
  params : List Char
  query : List Char
  fragment : List Char
deriving DecidableEq

def uses_relative : List String :=
  ["", "ftp", "http", "gopher", "nntp", "imap", "wais", "file", "https",
   "shttp", "mms", "prospero", "rtsp", "rtspu", "sftp", "svn", "svn+ssh",
   "ws", "wss"]

def uses_netloc : List String :=
  ["", "ftp", "http", "gopher", "nntp", "telnet", "imap", "wais", "file",
   "mms", "https", "shttp", "snews", "prospero", "rtsp", "rtspu", "rsync",
   "svn", "svn+ssh", "sftp", "nfs", "git", "git+ssh", "ws", "wss",
   "itms-services"]

def uses_params : List String :=
  ["", "ftp", "hdl", "prospero", "http", "imap", "https", "shttp", "rtsp",
   "rtspu", "sip", "sips", "mms", "sftp", "tel"]

/-- `urllib.parse.urlparse(url, scheme=d)`. -/
def urlparseC (url d : List Char) : Option ParseC :=
  match urlsplitC url d with
  | none => none
  | some r =>
    if uses_params.contains ⟨r.scheme⟩ && r.path.contains ';' then
      let pp := splitParams r.path
      some ⟨r.scheme, r.netloc, pp.1, pp.2, r.query, r.fragment⟩
    else
      some ⟨r.scheme, r.netloc, r.path, [], r.query, r.fragment⟩

/-- `is_valid_url` (office_scraper.py lines 75–81, simple_scraper.py
64–70): parse and require a truthy scheme and netloc; an exception yields
`False`. -/
def is_valid_url (url : String) : Bool :=
  match urlparseC url.data [] with
  | none => false
  | some r => !r.scheme.isEmpty && !r.netloc.isEmpty

/-- `urllib.parse.urlunsplit` (CPython 3.11: the `//` part is emitted
when there is a netloc, or when the scheme uses one and the path does
not already start with `//`). -/
def urlunsplitC (scheme netloc path query fragment : List Char) : List Char :=
  let url :=
    if !netloc.isEmpty ||
        (!scheme.isEmpty && uses_netloc.contains ⟨scheme⟩ && path.take 2 ≠ ['/', '/']) then
      let url2 := if !path.isEmpty && path.take 1 ≠ ['/'] then '/' :: path else path
      '/' :: '/' :: (netloc ++ url2)
    else path
  let url := if !scheme.isEmpty then scheme ++ ':' :: url else url
  let url := if !query.isEmpty then url ++ '?' :: query else url
  if !fragment.isEmpty then url ++ '#' :: fragment else url

/-- `urllib.parse.urlunparse`. -/
def urlunparseC (p : ParseC) : List Char :=
  let path := if !p.params.isEmpty then p.path ++ ';' :: p.params else p.path
  urlunsplitC p.scheme p.netloc path p.query p.fragment

/-- Python `str.split(ch)` on character lists. -/
def splitOnChar (ch : Char) : List Char → List (List Char)
  | [] => [[]]
  | c :: cs =>
    let r := splitOnChar ch cs
    if c = ch then [] :: r
    else
      match r with
      | [] => [[c]]
      | h :: t => (c :: h) :: t

/-- Python `ch.join(parts)`. -/
def joinChar (ch : Char) : List (List Char) → List Char
  | [] => []
  | [a] => a
  | a :: rest => a ++ ch :: joinChar ch rest

/-- `segments[1:-1] = filter(None, segments[1:-1])`. -/
def filterMiddle (segs : List (List Char)) : List (List Char) :=
  match segs with
  | [] => []
  | [a] => [a]
  | a :: rest =>
      a :: ((rest.dropLast.filter (fun s => !s.isEmpty)) ++ rest.drop (rest.length - 1))

/-- The `.`/`..` resolution loop of `urljoin` (`pop` on an empty list is
a no-op, as the `IndexError` is passed). -/
def resolveSegs (segs : List (List Char)) : List (List Char) :=
  segs.foldl (fun acc seg =>
    if seg = ['.', '.'] then acc.dropLast
    else if seg = ['.'] then acc
    else acc ++ [seg]) []

/-- The pure part of `urljoin` after both URLs have been parsed. -/
def joinParsed (b u : ParseC) (url : List Char) : List Char :=
  if u.scheme ≠ b.scheme ∨ ¬ uses_relative.contains ⟨u.scheme⟩ then url
  else if uses_netloc.contains ⟨u.scheme⟩ ∧ ¬ u.netloc.isEmpty then
    urlunparseC ⟨u.scheme, u.netloc, u.path, u.params, u.query, u.fragment⟩
  else
    let netloc := if uses_netloc.contains ⟨u.scheme⟩ then b.netloc else u.netloc
    if u.path.isEmpty ∧ u.params.isEmpty then
      let query := if u.query.isEmpty then b.query else u.query
      urlunparseC ⟨u.scheme, netloc, b.path, b.params, query, u.fragment⟩
    else
      let baseParts := splitOnChar '/' b.path
      let baseParts := if baseParts.getLast?.getD [] ≠ [] then baseParts.dropLast else baseParts
      let segments :=
        if u.path.take 1 = ['/'] then splitOnChar '/' u.path
        else filterMiddle (baseParts ++ splitOnChar '/' u.path)
      let resolved := resolveSegs segments
      let lastSeg := segments.getLast?.getD []
      let resolved := if lastSeg = ['.'] ∨ lastSeg = ['.', '.'] then resolved ++ [[]] else resolved
      let newpath := joinChar '/' resolved
      let newpath := if newpath.isEmpty then ['/'] else newpath
      urlunparseC ⟨u.scheme, netloc, newpath, u.params, u.query, u.fragment⟩

/-- `urllib.parse.urljoin`. -/
def urljoinC (base url : List Char) : Option (List Char) :=
  if base.isEmpty then some url
  else if url.isEmpty then some base
  else
    match urlparseC base [] with
    | none => none
    | some b =>
      match urlparseC url b.scheme with
      | none => none
      | some u => some (joinParsed b u url)

/-- `normalize_url` (office_scraper.py lines 84–88, simple_scraper.py
72–76).  `none` models a `ValueError` escaping from `urljoin` (this
function has no exception handler of its own). -/
def normalize_url (base url : String) : Option String :=
  if is_valid_url url then some url
  else (urljoinC base.data url.data).map (⟨·⟩)

/-! ## XLSX extraction core (office_scraper.py lines 214–251)

Only the downloading is external; the text-building loop over the loaded
workbook is modelled here.  A cell value is `none` (Python `None`) or an
integer or string; `str(cell.value)` is `pyStr`. -/

/-- The value of a spreadsheet cell as seen by the extraction loop. -/
inductive CellVal where
  | int (n : Int)
  | str (s : String)
deriving DecidableEq

/-- Python `str()` on a cell value. -/
def pyStr : CellVal → String
  | .int n => toString n
  | .str s => s

/-- Python `" | ".join(str(cell.value) if cell.value is not None else "" for cell in row)`. -/
def rowText (row : List (Option CellVal)) : String :=
  String.intercalate " | " (row.map (fun c => match c with
    | some v => pyStr v
    | none => ""))

/-- Python `str.strip()` on strings. -/
def stripStr (s : String) : String := ⟨stripList s.data⟩

/-- The text accumulated for one sheet: a `Sheet: <name>` header line,
then one line per row whose joined text is non-blank. -/
def sheetText (name : String) (rows : List (List (Option CellVal))) : String :=
  "Sheet: " ++ name ++ "\n" ++
    String.join (rows.map (fun row =>
      if stripStr (rowText row) ≠ "" then rowText row ++ "\n" else ""))

/-- The extraction loop of `extract_xlsx_text` over a loaded workbook
(list of sheets in workbook order, each a name with its rows). -/
def xlsxText (wb : List (String × List (List (Option CellVal)))) : String :=
  String.join (wb.map (fun s => sheetText s.1 s.2))

/-! ## Page crawler (office_scraper.py lines 91–140) -/

/-- The outcome of `requests.get(url, timeout=15)` as observed by
`crawl_page`: an exception (timeout, connection error, invalid URL), or a
response with an HTTP status code, a `Content-Type` header value, a body
(`response.text`), together with the visible text and the `a[href]`
attribute values that BeautifulSoup extracts from that body (the HTML
parsing itself is external to the repository). -/
inductive HttpOutcome where
  | err
  | ok (status : Nat) (contentType : String) (body : String) (pageText : String)
      (hrefs : List String)

/-- `requests.Response.raise_for_status` raises exactly for 4xx and 5xx
status codes. -/
def raisesForStatus (status : Nat) : Bool := 400 ≤ status && status < 600

/-- Python `str.lower()` (ASCII scope). -/
def lowerS (s : String) : String := ⟨s.data.map Char.toLower⟩

/-- Python `pat in s` on strings: substring containment. -/
def containsSub (pat s : String) : Bool := decide (pat.data <:+: s.data)

/-- The recognized document extensions (office_scraper.py line 133). -/
def docExts : List String :=
  [".pdf", ".txt", ".doc", ".docx", ".xls", ".xlsx", ".ppt", ".pptx"]

/-- `any(link.lower().endswith(ext) for ext in [...])`. -/
def hasDocExt (link : String) : Bool :=
  docExts.any (fun e => e.data.isSuffixOf (lowerS link).data)

/-- The link-collection loop of `crawl_page` (lines 122–128): resolve
each href against the page URL and keep the truthy, valid results in
order.  `none` models an exception escaping from `normalize_url`
mid-loop (caught by `crawl_page`'s handler). -/
def addLinks (base : String) : List String → Option (List String)
  | [] => some []
  | h :: t =>
    match normalize_url base h with
    | none => none
    | some full =>
      match addLinks base t with
      | none => none
      | some rest =>
          some (if full ≠ "" ∧ is_valid_url full = true then full :: rest else rest)

/-- The MIME families treated as direct documents (line 107). -/
def docMimes : List String :=
  ["application/pdf", "application/vnd.openxmlformats-officedocument",
   "application/msword"]

/-- `crawl_page` (office_scraper.py lines 91–140) over an abstract HTTP
outcome: page text together with the downloadable links; `("", [])` on
any caught exception. -/
def crawl_page (url : String) (o : HttpOutcome) : String × List String :=
  match o with
  | .err => ("", [])
  | .ok status contentType body pageText hrefs =>
    if raisesForStatus status then ("", [])
    else
      let ct := lowerS contentType
      if docMimes.any (fun m => containsSub m ct) then ("", [url])
      else if containsSub "text/plain" ct then (body, [])
      else
        match addLinks url hrefs with
        | none => ("", [])
        | some links => (pageText, links.filter hasDocExt)

/-- Does this outcome make the fetch a failure (exception, or a status
`raise_for_status` raises on)? -/
def crawlFails (o : HttpOutcome) : Bool :=
  match o with
  | .err => true
  | .ok status _ _ _ _ => raisesForStatus status

/-! ## Orchestrator (office_scraper.py lines 362–407) -/

structure ContentRecord where
  url : String
  content : String
deriving DecidableEq

/-- The abstract per-URL environment: the crawl result of each URL and
the text extracted from each document URL (network and document parsers
are external; `extract` plays `extract_document_text`, whose failures
surface as the empty string). -/
structure PipelineEnv where
  crawl : String → String × List String
  extract : String → String

/-- Python string slicing `s[:n]` (by characters). -/
def takeStr (n : Nat) (s : String) : String := ⟨s.data.take n⟩

/-- `process_url` (office_scraper.py lines 362–384): crawl, extract the
non-empty document texts, join, clean, truncate to 10000 characters. -/
def process_url (env : PipelineEnv) (url : String) : ContentRecord :=
  let pr := env.crawl url
  let document_texts := (pr.2.map env.extract).filter (fun t => t ≠ "")
  let combined :=
    if document_texts.isEmpty then pr.1
    else pr.1 ++ "\n" ++ String.intercalate "\n" document_texts
  { url := url, content := takeStr 10000 (clean_text combined) }

/-- The aggregation and filtering of `main` (lines 396–400): one record
per URL in order, then records with empty content removed. -/
def main_results (env : PipelineEnv) (urls : List String) : List ContentRecord :=
  (urls.map (process_url env)).filter (fun r => r.content ≠ "")

/-! ## Occurrence predicates for the regex patterns

`startB p l` says the pattern matcher `p` (one of the `...MatchLen`
functions) matches at the head of `l`; `hasB p l` says it matches at some
position of `l`.  "The output contains no URL-shaped substring" is
`hasB urlMatchLen out = false`. -/

def startB (p : List Char → Option Nat) (l : List Char) : Bool := (p l).isSome

def hasB (p : List Char → Option Nat) : List Char → Bool
  | [] => false
  | c :: cs => startB p (c :: cs) || hasB p cs

/-! Properties of a match-length function `m` that hold for the patterns
whose leading token is `\S`-only and whose greedy tail runs to the end of
the current non-whitespace run:

* `MPos`: a match consumes at least one character;
* `MNext`: the character right after a match (if any) is whitespace;
* `MWs`: no match starts at a whitespace character. -/

def MPos (m : List Char → Option Nat) : Prop := ∀ l n, m l = some n → 1 ≤ n

def MNext (m : List Char → Option Nat) : Prop :=
  ∀ l n c cs, m l = some n → l.drop n = c :: cs → wsChar c = true

def MWs (m : List Char → Option Nat) : Prop :=
  ∀ c cs, wsChar c = true → m (c :: cs) = none

/-- A pattern is prefix-determined: a match at the head is witnessed by a
block of `k ≥ 1` leading non-whitespace characters, and any list with the
same `k`-character prefix also matches. -/
def PatSpec (p : List Char → Option Nat) : Prop :=
  ∀ l, (p l).isSome = true → ∃ k, 1 ≤ k ∧ k ≤ l.length ∧
    (∀ c ∈ l.take k, nonWs c = true) ∧
    (∀ l', k ≤ l'.length → l'.take k = l.take k → (p l').isSome = true)

/-- No two adjacent whitespace characters. -/
def noAdjWs : List Char → Bool
  | [] => true
  | [_] => true
  | a :: b :: rest => !(wsChar a && wsChar b) && noAdjWs (b :: rest)

/-- `DelNW out l`: `out` is `l` with some non-whitespace characters
deleted.  This is the relation between input and output of the
literal-`None` removal pass, whose matched text `None` consists of
non-whitespace characters only. -/
inductive DelNW : List Char → List Char → Prop where
  | nil : DelNW [] []
  | keep (c : Char) {out l : List Char} : DelNW out l → DelNW (c :: out) (c :: l)
  | del (c : Char) {out l : List Char} (hc : wsChar c = false) :
      DelNW out l → DelNW out (c :: l)

/-- A list contains a substring matching `\S+@\S+\.\S+`: a non-empty
all-non-whitespace block directly before an `'@'`, a non-empty
all-non-whitespace block between the `'@'` and a `'.'`, and a
non-whitespace character right after that `'.'`. -/
def emailShape (l : List Char) : Prop :=
  ∃ p A B z q, l = p ++ A ++ '@' :: (B ++ '.' :: z :: q) ∧
    A ≠ [] ∧ B ≠ [] ∧ (∀ c ∈ A, wsChar c = false) ∧
    (∀ c ∈ B, wsChar c = false) ∧ wsChar z = false

/-! ### Lemmas about the URL embedding -/

theorem splitFirst_not_mem (ch : Char) :
    ∀ l : List Char, (∀ c ∈ l, c ≠ ch) → splitFirst ch l = (l, none) := by
  intro l
  induction l with
  | nil => intro _; rfl
  | cons c cs ih =>
    intro h
    rw [splitFirst, if_neg (h c (by simp)), ih (fun c' hc' => h c' (by simp [hc']))]

theorem splitFirst_append (ch : Char) (a R : List Char) (ha : ∀ c ∈ a, c ≠ ch) :
    splitFirst ch (a ++ ch :: R) = (a, some R) := by
  induction a with
  | nil => simp [splitFirst]
  | cons c cs ih =>
    rw [List.cons_append, splitFirst, if_neg (ha c (by simp)),
      ih (fun c' hc' => ha c' (by simp [hc']))]

theorem splitFirst_some_eq (ch : Char) :
    ∀ l b a, splitFirst ch l = (b, some a) → l = b ++ ch :: a := by
  intro l
  induction l with
  | nil => intro b a h; simp [splitFirst] at h
  | cons c cs ih =>
    intro b a h
    rw [splitFirst] at h
    by_cases hc : c = ch
    · rw [if_pos hc] at h
      have h1 : ([] : List Char) = b := congrArg Prod.fst h
      have h2 : cs = a := Option.some.inj (congrArg Prod.snd h)
      subst h2
      rw [← h1, hc]
      rfl
    · rw [if_neg hc] at h
      have h1 : c :: (splitFirst ch cs).1 = b := congrArg Prod.fst h
      have h2 : (splitFirst ch cs).2 = some a := congrArg Prod.snd h
      obtain ⟨b', rfl⟩ : ∃ b', b = c :: b' := ⟨(splitFirst ch cs).1, h1.symm⟩
      have hfst : (splitFirst ch cs).1 = b' := by
        have := congrArg List.tail h1
        simpa using this
      have hsp : splitFirst ch cs = (b', some a) := by
        rw [← hfst, ← h2]
      have := ih b' a hsp
      simp [this]

theorem takeWhile_append_all (p : Char → Bool) (a b : List Char)
    (h : ∀ c ∈ a, p c = true) : (a ++ b).takeWhile p = a ++ b.takeWhile p := by
  induction a with
  | nil => simp
  | cons x xs ih =>
    simp [List.takeWhile_cons, h x (by simp), ih (fun c hc => h c (by simp [hc]))]

theorem dropWhile_append_all (p : Char → Bool) (a b : List Char)
    (h : ∀ c ∈ a, p c = true) : (a ++ b).dropWhile p = b.dropWhile p := by
  induction a with
  | nil => simp
  | cons x xs ih =>
    simp [List.dropWhile_cons, h x (by simp), ih (fun c hc => h c (by simp [hc]))]

theorem detectScheme_some_ne_nil (url : List Char) (p : List Char × List Char)
    (h : detectScheme url = some p) : p.1 ≠ [] := by
  unfold detectScheme at h
  split at h
  · split at h
    · obtain rfl := Option.some.inj h
      intro hnil
      simp at hnil
    · simp at h
  · simp at h

theorem mem_of_mem_takeWhile (p : Char → Bool) :
    ∀ (l : List Char) (a : Char), a ∈ l.takeWhile p → a ∈ l := by
  intro l
  induction l with
  | nil => intro a h; simp at h
  | cons c cs ih =>
    intro a h
    rw [List.takeWhile_cons] at h
    by_cases hp : p c = true
    · rw [if_pos hp] at h
      rcases List.mem_cons.mp h with h | h
      · simp [h]
      · exact List.mem_cons_of_mem _ (ih a h)
    · rw [if_neg hp] at h
      simp at h

theorem detectScheme_rest_sub (url : List Char) (p : List Char × List Char)
    (h : detectScheme url = some p) : ∀ c ∈ p.2, c ∈ url := by
  unfold detectScheme at h
  split at h
  · next c0 cs0 after0 heq =>
    split at h
    · obtain rfl := Option.some.inj h
      intro c hc
      have hc' : c ∈ after0 := hc
      rw [splitFirst_some_eq ':' url _ _ heq]
      simp [hc']
    · simp at h
  · simp at h

theorem schemeRest_of_some (url1 d : List Char) (p : List Char × List Char)
    (h : detectScheme url1 = some p) : schemeRest url1 d = p := by
  simp [schemeRest, h]

theorem schemeRest_of_none (url1 d : List Char)
    (h : detectScheme url1 = none) : schemeRest url1 d = (d, url1) := by
  simp [schemeRest, h]

theorem schemeRest_snd_sub (url1 d : List Char) :
    ∀ c ∈ (schemeRest url1 d).2, c ∈ url1 := by
  cases hdet : detectScheme url1 with
  | some p =>
    rw [schemeRest_of_some url1 d p hdet]
    exact detectScheme_rest_sub url1 p hdet
  | none =>
    rw [schemeRest_of_none url1 d hdet]
    exact fun c hc => hc

theorem splitNetloc_mem (rest : List Char) (c : Char)
    (hc : c ∈ (splitNetloc rest).1) :
    netlocDelim c = false ∧ c ∈ rest := by
  unfold splitNetloc at hc
  by_cases hss : startsSlashSlash rest = true
  · rw [if_pos hss] at hc
    have hc1 : c ∈ (rest.drop 2).takeWhile (fun c => !netlocDelim c) := hc
    refine ⟨by simpa using List.mem_takeWhile_imp hc1, ?_⟩
    exact List.drop_subset 2 _ (mem_of_mem_takeWhile _ _ _ hc1)
  · rw [if_neg hss] at hc
    simp at hc

theorem urlsplit_netloc_facts (url d : List Char) (s : SplitC)
    (h : urlsplitC url d = some s) :
    (∀ c ∈ s.netloc, netlocDelim c = false ∧ (c = '\t' || c = '\r' || c = '\n') = false) ∧
    ((s.netloc.contains '[' && !s.netloc.contains ']') ||
      (s.netloc.contains ']' && !s.netloc.contains '[')) = false := by
  simp only [urlsplitC] at h
  split at h
  · simp at h
  · next hbr =>
    obtain rfl := Option.some.inj h
    refine ⟨?_, by simpa using hbr⟩
    intro c hc
    have hc0 : c ∈ (splitNetloc
        (schemeRest (removeUnsafe (url.dropWhile c0OrSpace)) d).2).1 := hc
    obtain ⟨hdelim, hmem⟩ := splitNetloc_mem _ _ hc0
    refine ⟨hdelim, ?_⟩
    have hc4 : c ∈ removeUnsafe (url.dropWhile c0OrSpace) :=
      schemeRest_snd_sub _ _ c hmem
    unfold removeUnsafe at hc4
    have := (List.mem_filter.mp hc4).2
    simpa using this

theorem urlsplit_default (cand d : List Char) (s : SplitC)
    (hs : urlsplitC cand [] = some s) (hss : s.scheme = []) :
    urlsplitC cand d = some { s with scheme := d } := by
  simp only [urlsplitC] at hs ⊢
  cases hdet : detectScheme (removeUnsafe (cand.dropWhile c0OrSpace)) with
  | some p =>
    rw [schemeRest_of_some _ _ p hdet] at hs ⊢
    exfalso
    split at hs
    · simp at hs
    · obtain rfl := Option.some.inj hs
      exact absurd (by simpa using hss) (detectScheme_some_ne_nil _ _ hdet)
  | none =>
    rw [schemeRest_of_none _ _ hdet] at hs ⊢
    split at hs
    · simp at hs
    · next hbr =>
      obtain rfl := Option.some.inj hs
      rw [if_neg hbr]

theorem urlparse_default (cand d : List Char) (u : ParseC)
    (hu : urlparseC cand [] = some u) (hus : u.scheme = [])
    (hd : uses_params.contains (⟨d⟩ : String) = true) :
    urlparseC cand d = some { u with scheme := d } := by
  unfold urlparseC at hu ⊢
  cases hsplit : urlsplitC cand [] with
  | none => rw [hsplit] at hu; simp at hu
  | some s =>
    simp only [hsplit] at hu
    split at hu
    · next hcond =>
      obtain rfl := Option.some.inj hu
      have hss : s.scheme = [] := by simpa using hus
      simp only [urlsplit_default cand d s hsplit hss]
      have hpath : s.path.contains ';' = true := (Bool.and_eq_true _ _ ▸ hcond).2
      rw [if_pos (by simp only [Bool.and_eq_true]; exact ⟨hd, hpath⟩)]
    · next hcond =>
      obtain rfl := Option.some.inj hu
      have hss : s.scheme = [] := by simpa using hus
      simp only [urlsplit_default cand d s hsplit hss]
      have hpath : s.path.contains ';' = false := by
        by_cases hp : s.path.contains ';' = true
        · exfalso
          apply hcond
          simp only [hss, hp, Bool.and_true]
          decide
        · simpa using hp
      rw [if_neg (by
        intro hcontra
        rw [Bool.and_eq_true] at hcontra
        rw [hpath] at hcontra
        exact absurd hcontra.2 (by simp))]

/-- The output of `urlunsplit` for a scheme of `http`/`https` and a
non-empty netloc decomposes as `scheme ':' '//' netloc T` where `T` is
empty or starts with one of the netloc-terminating delimiters. -/
theorem urlunsplit_decomp (S N path2 q f : List Char)
    (hS : S = "http".data ∨ S = "https".data) (hN : N ≠ []) :
    ∃ T, urlunsplitC S N path2 q f = S ++ ':' :: '/' :: '/' :: (N ++ T) ∧
      (T = [] ∨ ∃ t ts, T = t :: ts ∧ netlocDelim t = true) := by
  have hNe : N.isEmpty = false := by simpa using hN
  have hSne : S ≠ [] := by rcases hS with rfl | rfl <;> decide
  refine ⟨(if !path2.isEmpty && path2.take 1 ≠ ['/'] then '/' :: path2 else path2) ++
    ((if !q.isEmpty then '?' :: q else []) ++ (if !f.isEmpty then '#' :: f else [])), ?_, ?_⟩
  · by_cases hq : q.isEmpty <;> by_cases hf : f.isEmpty <;>
      simp [urlunsplitC, hNe, hSne, hq, hf, List.append_assoc]
  · have hu2 : (if !path2.isEmpty && path2.take 1 ≠ ['/'] then '/' :: path2 else path2) = [] ∨
        ∃ ts, (if !path2.isEmpty && path2.take 1 ≠ ['/'] then '/' :: path2 else path2) =
          '/' :: ts := by
      cases path2 with
      | nil => left; simp
      | cons c cs =>
        by_cases hc : c = '/'
        · subst hc
          right
          refine ⟨cs, ?_⟩
          rw [if_neg (by simp)]
        · right
          refine ⟨c :: cs, ?_⟩
          rw [if_pos (by simp [List.take_succ_cons, hc])]
    rcases hu2 with hu2 | ⟨ts, hu2⟩
    · rw [hu2]
      by_cases hq : q.isEmpty
      · by_cases hf : f.isEmpty
        · left; simp [hq, hf]
        · right
          refine ⟨'#', f, ?_, by decide⟩
          simp [hq, hf]
      · right
        refine ⟨'?', q ++ (if !f.isEmpty then '#' :: f else []), ?_, by decide⟩
        simp [hq]
    · rw [hu2]
      right
      exact ⟨'/', _, rfl, by decide⟩

/-- Parsing a string of the shape `scheme ':' '//' netloc T` (with `T`
empty or delimiter-headed) recovers the scheme and the netloc. -/
theorem urlsplit_of_shape (S N T : List Char)
    (hS : S = "http".data ∨ S = "https".data)
    (hcl : ∀ c ∈ N, netlocDelim c = false ∧ (c = '\t' || c = '\r' || c = '\n') = false)
    (hbr : ((N.contains '[' && !N.contains ']') ||
            (N.contains ']' && !N.contains '[')) = false)
    (hT : T = [] ∨ ∃ t ts, T = t :: ts ∧ netlocDelim t = true) :
    ∃ r, urlparseC (S ++ ':' :: '/' :: '/' :: (N ++ T)) [] = some r ∧
      r.scheme = S ∧ r.netloc = N := by
  have hNfilter : List.filter (fun c => !(c = '\t' || c = '\r' || c = '\n')) N = N := by
    rw [List.filter_eq_self]
    intro c hc
    simp [(hcl c hc).2]
  have hT' : removeUnsafe T = [] ∨
      ∃ t ts', removeUnsafe T = t :: ts' ∧ netlocDelim t = true := by
    rcases hT with rfl | ⟨t, ts, rfl, ht⟩
    · left; rfl
    · right
      have ht3 : (t = '/' ∨ t = '?') ∨ t = '#' := by
        revert ht
        unfold netlocDelim
        intro ht
        simpa using ht
      have htkeep : (!(t = '\t' || t = '\r' || t = '\n')) = true := by
        rcases ht3 with (rfl | rfl) | rfl <;> decide
      refine ⟨t, removeUnsafe ts, ?_, ht⟩
      show List.filter _ (t :: ts) = _
      rw [List.filter_cons, if_pos htkeep]
      rfl
  have hnl1 : (splitNetloc ('/' :: '/' :: (N ++ removeUnsafe T))).1 = N := by
    unfold splitNetloc
    rw [if_pos (show startsSlashSlash ('/' :: '/' :: (N ++ removeUnsafe T)) = true from rfl)]
    show (List.drop 2 ('/' :: '/' :: (N ++ removeUnsafe T))).takeWhile
      (fun c => !netlocDelim c) = N
    have hdrop2 : List.drop 2 ('/' :: '/' :: (N ++ removeUnsafe T)) =
        N ++ removeUnsafe T := rfl
    rw [hdrop2, takeWhile_append_all _ _ _ (fun c hc => by simp [(hcl c hc).1])]
    rcases hT' with h0 | ⟨t, ts', h0, ht⟩
    · rw [h0]; simp
    · rw [h0, List.takeWhile_cons_of_neg (by simp [ht])]
      simp
  rcases hS with rfl | rfl
  · have hfilter : removeUnsafe (('h' :: 't' :: 't' :: 'p' :: ':' :: '/' :: '/' ::(N ++ T) : List Char)) =
        'h' :: 't' :: 't' :: 'p' :: ':' :: '/' :: '/' ::(N ++ removeUnsafe T) := by
      show List.filter _ _ = _
      rw [List.filter_cons, if_pos (by decide), List.filter_cons, if_pos (by decide),
        List.filter_cons, if_pos (by decide), List.filter_cons, if_pos (by decide),
        List.filter_cons, if_pos (by decide), List.filter_cons, if_pos (by decide),
        List.filter_cons, if_pos (by decide), List.filter_append, hNfilter]
      rfl
    have hdrop : (('h' :: 't' :: 't' :: 'p' :: ':' :: '/' :: '/' ::(N ++ T) : List Char)).dropWhile
        c0OrSpace = 'h' :: 't' :: 't' :: 'p' :: ':' :: '/' :: '/' ::(N ++ T) :=
      List.dropWhile_cons_of_neg (by decide)
    have hdet : detectScheme ('h' :: 't' :: 't' :: 'p' :: ':' :: '/' :: '/' ::(N ++ removeUnsafe T)) =
        some (['h','t','t','p'], '/' :: '/' ::(N ++ removeUnsafe T)) := by
      unfold detectScheme
      have hsp : splitFirst ':' ('h' :: 't' :: 't' :: 'p' :: ':' :: '/' :: '/' ::(N ++ removeUnsafe T)) =
          (['h','t','t','p'], some ('/' :: '/' ::(N ++ removeUnsafe T))) := by
        simp [splitFirst]
      rw [hsp]
      show (if ('h'.isAlpha && (['t','t','p'] : List Char).all schemeChar) = true then
          some (List.map Char.toLower ['h','t','t','p'], '/' :: '/' ::(N ++ removeUnsafe T))
        else none) = _
      rw [if_pos (by decide)]
      rfl
    show ∃ r, urlparseC ('h' :: 't' :: 't' :: 'p' :: ':' :: '/' :: '/' ::(N ++ T)) [] = some r ∧
      r.scheme = "http".data ∧ r.netloc = N
    unfold urlparseC
    simp only [urlsplitC, hdrop, hfilter, schemeRest_of_some _ _ _ hdet]
    rw [if_neg (by simp only [hnl1, hbr]; exact Bool.false_ne_true)]
    simp only [hnl1]
    split
    · refine ⟨_, rfl, ?_, ?_⟩ <;> rfl
    · refine ⟨_, rfl, ?_, ?_⟩ <;> rfl
  · have hfilter : removeUnsafe (('h' :: 't' :: 't' :: 'p' :: 's' :: ':' :: '/' :: '/' ::(N ++ T) : List Char)) =
        'h' :: 't' :: 't' :: 'p' :: 's' :: ':' :: '/' :: '/' ::(N ++ removeUnsafe T) := by
      show List.filter _ _ = _
      rw [List.filter_cons, if_pos (by decide), List.filter_cons, if_pos (by decide),
        List.filter_cons, if_pos (by decide), List.filter_cons, if_pos (by decide),
        List.filter_cons, if_pos (by decide), List.filter_cons, if_pos (by decide),
        List.filter_cons, if_pos (by decide), List.filter_cons, if_pos (by decide),
        List.filter_append, hNfilter]
      rfl
    have hdrop : (('h' :: 't' :: 't' :: 'p' :: 's' :: ':' :: '/' :: '/' ::(N ++ T) : List Char)).dropWhile
        c0OrSpace = 'h' :: 't' :: 't' :: 'p' :: 's' :: ':' :: '/' :: '/' ::(N ++ T) :=
      List.dropWhile_cons_of_neg (by decide)
    have hdet : detectScheme ('h' :: 't' :: 't' :: 'p' :: 's' :: ':' :: '/' :: '/' ::(N ++ removeUnsafe T)) =
        some (['h','t','t','p','s'], '/' :: '/' ::(N ++ removeUnsafe T)) := by
      unfold detectScheme
      have hsp : splitFirst ':' ('h' :: 't' :: 't' :: 'p' :: 's' :: ':' :: '/' :: '/' ::(N ++ removeUnsafe T)) =
          (['h','t','t','p','s'], some ('/' :: '/' ::(N ++ removeUnsafe T))) := by
        simp [splitFirst]
      rw [hsp]
      show (if ('h'.isAlpha && (['t','t','p','s'] : List Char).all schemeChar) = true then
          some (List.map Char.toLower ['h','t','t','p','s'], '/' :: '/' ::(N ++ removeUnsafe T))
        else none) = _
      rw [if_pos (by decide)]
      rfl
    show ∃ r, urlparseC ('h' :: 't' :: 't' :: 'p' :: 's' :: ':' :: '/' :: '/' ::(N ++ T)) [] = some r ∧
      r.scheme = "https".data ∧ r.netloc = N
    unfold urlparseC
    simp only [urlsplitC, hdrop, hfilter, schemeRest_of_some _ _ _ hdet]
    rw [if_neg (by simp only [hnl1, hbr]; exact Bool.false_ne_true)]
    simp only [hnl1]
    split
    · refine ⟨_, rfl, ?_, ?_⟩ <;> rfl
    · refine ⟨_, rfl, ?_, ?_⟩ <;> rfl

theorem urlparse_netloc_facts (url d : List Char) (p : ParseC)
    (h : urlparseC url d = some p) :
    (∀ c ∈ p.netloc, netlocDelim c = false ∧ (c = '\t' || c = '\r' || c = '\n') = false) ∧
    ((p.netloc.contains '[' && !p.netloc.contains ']') ||
      (p.netloc.contains ']' && !p.netloc.contains '[')) = false := by
  unfold urlparseC at h
  cases hs : urlsplitC url d with
  | none => rw [hs] at h; simp at h
  | some s =>
    simp only [hs] at h
    have hf := urlsplit_netloc_facts url d s hs
    split at h <;> (obtain rfl := Option.some.inj h; simpa using hf)

/-- Re-parsing the output of `urlunparse` recovers the scheme and the
netloc, for an `http(s)` scheme and a well-formed non-empty netloc. -/
theorem urlunparse_reparse (P : ParseC)
    (hS : P.scheme = "http".data ∨ P.scheme = "https".data)
    (hN : P.netloc ≠ [])
    (hcl : ∀ c ∈ P.netloc, netlocDelim c = false ∧ (c = '\t' || c = '\r' || c = '\n') = false)
    (hbr : ((P.netloc.contains '[' && !P.netloc.contains ']') ||
            (P.netloc.contains ']' && !P.netloc.contains '[')) = false) :
    ∃ r, urlparseC (urlunparseC P) [] = some r ∧
      r.scheme = P.scheme ∧ r.netloc = P.netloc := by
  unfold urlunparseC
  obtain ⟨T, h1, h2⟩ := urlunsplit_decomp P.scheme P.netloc
    (if !P.params.isEmpty then P.path ++ ';' :: P.params else P.path) P.query P.fragment hS hN
  rw [h1]
  exact urlsplit_of_shape _ _ _ hS hcl hbr h2

/-- After both parses, when the candidate is a relative reference (same
scheme as the base, no authority of its own), `joinParsed` always emits
an `urlunparse` of a record carrying the base's scheme and netloc. -/
theorem joinParsed_scheme_netloc (b u' : ParseC) (url : List Char)
    (hsch : u'.scheme = b.scheme)
    (hrel : uses_relative.contains (⟨b.scheme⟩ : String) = true)
    (hnet : uses_netloc.contains (⟨b.scheme⟩ : String) = true)
    (hun : u'.netloc = []) :
    ∃ P : ParseC, joinParsed b u' url = urlunparseC P ∧
      P.scheme = b.scheme ∧ P.netloc = b.netloc := by
  unfold joinParsed
  rw [if_neg (by simp [hsch]; simpa using hrel)]
  rw [if_neg (by simp [hun])]
  simp only [hsch, hun, hnet, if_true]
  split
  · exact ⟨_, rfl, rfl, rfl⟩
  · exact ⟨_, rfl, rfl, rfl⟩

/-! ## Claim C4 -/

/-- C4 counterexample.  The protocol-relative candidate `"//b.com/y"`
fails `is_valid_url` (no scheme), yet `normalize_url` against the base
`"http://a.com/x"` yields `"http://b.com/y"`: the scheme comes from the
base but the host is the candidate's `b.com`, not the base's `a.com`. -/
theorem normalize_url_counterexample :
    is_valid_url "//b.com/y" = false ∧
    normalize_url "http://a.com/x" "//b.com/y" = some "http://b.com/y" ∧
    (urlparseC "http://b.com/y".data []).map ParseC.netloc ≠
      (urlparseC "http://a.com/x".data []).map ParseC.netloc := by
  refine ⟨by decide, by decide, by decide⟩

/-- C4 amended.  `normalize_url(base, candidate)` returns `candidate`
unchanged whenever `is_valid_url(candidate)` is true.  When
`is_valid_url(candidate)` is false **and** the candidate is a relative
reference proper — it has neither a scheme nor an authority of its own —
and the base is a parseable `http(s)` URL with a host, the returned
URL's scheme and host equal those of the base.  (For candidates with an
authority (`//host/…`) or a foreign scheme (`mailto:…`), the returned
URL need not point at the base's host — see the counterexample.) -/
theorem normalize_url_amended (base cand : String) (b u : ParseC)
    (hb : urlparseC base.data [] = some b)
    (hbs : b.scheme = "http".data ∨ b.scheme = "https".data)
    (hbn : b.netloc ≠ [])
    (hu : urlparseC cand.data [] = some u)
    (hus : u.scheme = [])
    (hun : u.netloc = []) :
    (∀ c : String, is_valid_url c = true → normalize_url base c = some c) ∧
    ∃ res r, normalize_url base cand = some (⟨res⟩ : String) ∧
      urlparseC res [] = some r ∧ r.scheme = b.scheme ∧ r.netloc = b.netloc := by
  constructor
  · intro c hv
    unfold normalize_url
    rw [if_pos hv]
  · have hval : is_valid_url cand = false := by
      unfold is_valid_url
      rw [hu]
      simp [hus]
    unfold normalize_url
    rw [if_neg (by simp [hval])]
    unfold urljoinC
    have hbase_nil : base.data ≠ [] := by
      intro h0
      rw [h0] at hb
      have hE : urlparseC ([] : List Char) [] = some ⟨[], [], [], [], [], []⟩ := by decide
      rw [hE] at hb
      have hbb := Option.some.inj hb
      have hbs' : b.scheme = [] := by rw [← hbb]
      rcases hbs with h | h <;> (rw [hbs'] at h; exact absurd h (by decide))
    rw [if_neg (by simp [hbase_nil])]
    by_cases hcand_nil : cand.data.isEmpty = true
    · rw [if_pos hcand_nil]
      refine ⟨base.data, b, ?_, hb, rfl, rfl⟩
      simp
    · rw [if_neg hcand_nil]
      have hd : uses_params.contains (⟨b.scheme⟩ : String) = true := by
        rcases hbs with h | h <;> (rw [h]; decide)
      simp only [hb, urlparse_default cand.data b.scheme u hu hus hd]
      obtain ⟨P, hP, hPs, hPn⟩ := joinParsed_scheme_netloc b
        { u with scheme := b.scheme } cand.data rfl
        (by rcases hbs with h | h <;> (rw [h]; decide))
        (by rcases hbs with h | h <;> (rw [h]; decide)) (by simpa using hun)
      obtain ⟨hcl, hbr⟩ := urlparse_netloc_facts base.data [] b hb
      obtain ⟨r, hr, hrs, hrn⟩ := urlunparse_reparse P (by rw [hPs]; exact hbs)
        (by rw [hPn]; exact hbn) (by rw [hPn]; exact hcl) (by rw [hPn]; exact hbr)
      refine ⟨urlunparseC P, r, ?_, hr, by rw [hrs, hPs], by rw [hrn, hPn]⟩
      rw [hP]
      simp

/-- Witness for the amended C4 at concrete inputs: base
`http://a.com/x`, relative candidate `report.pdf`. -/
theorem normalize_url_amended_witness :
    (∀ c : String, is_valid_url c = true → normalize_url "http://a.com/x" c = some c) ∧
    ∃ res r, normalize_url "http://a.com/x" "report.pdf" = some (⟨res⟩ : String) ∧
      urlparseC res [] = some r ∧
      r.scheme = (⟨"http".data, "a.com".data, "/x".data, [], [], []⟩ : ParseC).scheme ∧
      r.netloc = (⟨"http".data, "a.com".data, "/x".data, [], [], []⟩ : ParseC).netloc :=
  normalize_url_amended "http://a.com/x" "report.pdf"
    ⟨"http".data, "a.com".data, "/x".data, [], [], []⟩
    ⟨[], [], "report.pdf".data, [], [], []⟩
    (by decide) (by decide) (by decide) (by decide) (by decide) (by decide)

/-! ## Basic lemmas about the substitution scanners -/

theorem scanSubF_length (m : List Char → Option Nat) :
    ∀ fuel l, (scanSubF m fuel l).length ≤ l.length := by
  intro fuel
  induction fuel with
  | zero => intro l; simp [scanSubF]
  | succ n ih =>
    intro l
    cases l with
    | nil => simp [scanSubF]
    | cons c cs =>
      rw [scanSubF]
      cases h : m (c :: cs) with
      | some k =>
        calc (scanSubF m n ((c :: cs).drop k)).length
            ≤ ((c :: cs).drop k).length := ih _
          _ ≤ (c :: cs).length := by simp [List.length_drop]
      | none => simpa using ih cs

theorem scanSubF_subset (m : List Char → Option Nat) :
    ∀ fuel l c', c' ∈ scanSubF m fuel l → c' ∈ l := by
  intro fuel
  induction fuel with
  | zero => intro l c' h; simp [scanSubF] at h
  | succ n ih =>
    intro l c' h
    cases l with
    | nil => simp [scanSubF] at h
    | cons c cs =>
      rw [scanSubF] at h
      cases hm : m (c :: cs) with
      | some k =>
        rw [hm] at h
        exact List.drop_subset _ _ (ih _ _ h)
      | none =>
        rw [hm] at h
        rcases List.mem_cons.mp h with h | h
        · simp [h]
        · exact List.mem_cons_of_mem _ (ih _ _ h)

theorem wsCollapse_length : ∀ l : List Char, (wsCollapse l).length ≤ l.length := by
  intro l
  induction l using wsCollapse.induct with
  | case1 => simp [wsCollapse]
  | case2 c h => simp [wsCollapse, h]
  | case3 c h => simp [wsCollapse, h]
  | case4 a b rest h ih =>
    rw [wsCollapse, if_pos h]
    exact le_trans ih (by simp)
  | case5 a b rest h ih =>
    rw [wsCollapse, if_neg h]
    simpa using ih

theorem wsCollapse_ws_space :
    ∀ l : List Char, ∀ c ∈ wsCollapse l, wsChar c = true → c = ' ' := by
  intro l
  induction l using wsCollapse.induct with
  | case1 => simp [wsCollapse]
  | case2 c h =>
    intro c' hc' _
    rw [wsCollapse, if_pos h] at hc'
    simpa using hc'
  | case3 c h =>
    intro c' hc' hw
    rw [wsCollapse, if_neg h] at hc'
    simp at hc'
    subst hc'
    exact absurd hw (by simpa using h)
  | case4 a b rest h ih =>
    intro c' hc' hw
    rw [wsCollapse, if_pos h] at hc'
    exact ih c' hc' hw
  | case5 a b rest h ih =>
    intro c' hc' hw
    rw [wsCollapse, if_neg h] at hc'
    rcases List.mem_cons.mp hc' with hc' | hc'
    · subst hc'
      by_cases hws : wsChar a = true
      · simp [hws]
      · rw [if_neg hws] at hw
        exact absurd hw hws
    · exact ih c' hc' hw

theorem stripList_sublist (l : List Char) : (stripList l).Sublist l :=
  ( List.rdropWhile_prefix (wsChar ·) (l.dropWhile (wsChar ·))).sublist.trans
    (l.dropWhile_sublist (wsChar ·))

theorem cleanList_subset_collapse (l : List Char) :
    ∀ c ∈ cleanList l,
      c ∈ wsCollapse (scanSub noneMatchLen
        (scanSub emailMatchLen (scanSub urlMatchLen l))) := by
  intro c hc
  have h1 := (stripList_sublist _).subset hc
  exact scanSubF_subset _ _ _ _ h1

theorem hasB_append_right (p : List Char → Option Nat) (a b : List Char)
    (h : hasB p b = true) : hasB p (a ++ b) = true := by
  induction a with
  | nil => simpa using h
  | cons c cs ih => simp [hasB, ih]

theorem hasB_of_drop (p : List Char → Option Nat) (n : Nat) (l : List Char)
    (h : hasB p (l.drop n) = true) : hasB p l = true := by
  have h2 := hasB_append_right p (l.take n) (l.drop n) h
  rwa [List.take_append_drop] at h2

theorem hasB_of_suffix (p : List Char → Option Nat) {a l : List Char}
    (hs : a <:+ l) (h : hasB p a = true) : hasB p l = true := by
  obtain ⟨t, rfl⟩ := hs
  exact hasB_append_right p _ _ h

theorem hasB_of_prefix_append (p : List Char → Option Nat) (hp : PatSpec p) :
    ∀ a t, hasB p a = true → hasB p (a ++ t) = true := by
  intro a
  induction a with
  | nil => intro t h; simp [hasB] at h
  | cons c cs ih =>
    intro t h
    simp only [hasB, Bool.or_eq_true] at h
    rcases h with h | h
    · obtain ⟨k, _, hkle, _, htrans⟩ := hp _ h
      have hstart : (p ((c :: cs) ++ t)).isSome = true := by
        apply htrans
        · simp only [List.length_append]; omega
        · exact List.take_append_of_le_length hkle
      show hasB p (c :: (cs ++ t)) = true
      simp only [hasB, Bool.or_eq_true]
      exact Or.inl hstart
    · show hasB p (c :: (cs ++ t)) = true
      simp only [hasB, Bool.or_eq_true]
      exact Or.inr (ih t h)

theorem hasB_of_isPrefix (p : List Char → Option Nat) (hp : PatSpec p)
    {a l : List Char} (hpre : a <+: l) (h : hasB p a = true) :
    hasB p l = true := by
  obtain ⟨t, rfl⟩ := hpre
  exact hasB_of_prefix_append p hp a t h

theorem scanSubF_nil (m : List Char → Option Nat) (fuel : Nat) :
    scanSubF m fuel [] = [] := by
  cases fuel <;> rfl

theorem scanSubF_ws_cons (m : List Char → Option Nat) (hws : MWs m)
    (fuel : Nat) (d : Char) (ds : List Char) (h1 : 1 ≤ fuel)
    (hd : wsChar d = true) :
    scanSubF m fuel (d :: ds) = d :: scanSubF m (fuel - 1) ds := by
  obtain ⟨f, rfl⟩ : ∃ f, fuel = f + 1 := ⟨fuel - 1, by omega⟩
  rw [scanSubF, hws d ds hd]
  simp

/-- `dropWhile` is `drop` by the length of the corresponding `takeWhile`. -/
theorem dropWhile_eq_drop (p : Char → Bool) (l : List Char) :
    l.dropWhile p = l.drop (l.takeWhile p).length := by
  induction l with
  | nil => rfl
  | cons c cs ih =>
    by_cases h : p c
    · simp [List.dropWhile_cons, List.takeWhile_cons, h, ih]
    · simp [List.dropWhile_cons, List.takeWhile_cons, h]

theorem dropWhile_head_not (p : Char → Bool) (l : List Char) (c : Char)
    (cs : List Char) (h : l.dropWhile p = c :: cs) : p c = false := by
  have := List.head?_dropWhile_not p l
  rw [h] at this
  simpa using this

theorem takeWhile_len_ne_zero (p : Char → Bool) (l : List Char)
    (h : (l.takeWhile p).length ≠ 0) : ∃ d t, l = d :: t ∧ p d = true := by
  cases l with
  | nil => simp at h
  | cons d t =>
    by_cases hd : p d
    · exact ⟨d, t, rfl, hd⟩
    · rw [List.takeWhile_cons_of_neg (by simpa using hd)] at h
      simp at h

/-- Prefix agreement: a block of non-whitespace characters at the head of
a scanner output is literally the head of the input.  Deletions inside
the scan are always followed by whitespace (or the end), so they cannot
splice non-whitespace characters together. -/
theorem scanSubF_take_eq (m : List Char → Option Nat) (hpos : MPos m)
    (hnext : MNext m) (hws : MWs m) :
    ∀ fuel l k, l.length ≤ fuel → k ≤ (scanSubF m fuel l).length →
      (∀ c ∈ (scanSubF m fuel l).take k, nonWs c = true) →
      (scanSubF m fuel l).take k = l.take k := by
  intro fuel
  induction fuel with
  | zero =>
    intro l k hl _ _
    have : l = [] := List.length_eq_zero.mp (by omega)
    subst this
    simp [scanSubF_nil]
  | succ f ih =>
    intro l k hl hk hnw
    cases l with
    | nil => simp [scanSubF_nil]
    | cons c cs =>
      cases hm : m (c :: cs) with
      | some n =>
        simp only [scanSubF, hm] at hk hnw ⊢
        have hpos' := hpos _ _ hm
        cases hd : (c :: cs).drop n with
        | nil =>
          rw [hd, scanSubF_nil] at hk
          simp at hk
          simp [hk]
        | cons d ds =>
          have hwd : wsChar d = true := hnext _ _ _ _ hm hd
          have hlen : (d :: ds).length ≤ f := by
            have h1 : ((c :: cs).drop n).length = (c :: cs).length - n :=
              List.length_drop n _
            rw [hd] at h1
            simp only [List.length_cons] at h1 hl ⊢
            omega
          have hf1 : 1 ≤ f := by simp at hlen; omega
          rw [hd] at hk hnw
          rw [scanSubF_ws_cons m hws f d ds hf1 hwd] at hk hnw ⊢
          cases k with
          | zero => simp
          | succ k' =>
            exfalso
            have := hnw d (by simp)
            simp [nonWs, hwd] at this
      | none =>
        simp only [scanSubF, hm] at hk hnw ⊢
        cases k with
        | zero => simp
        | succ k' =>
          simp only [List.take_succ_cons]
          simp only [List.length_cons] at hk
          have htail : ∀ c' ∈ (scanSubF m f cs).take k', nonWs c' = true := by
            intro c' hc'
            exact hnw c' (by simp only [List.take_succ_cons]; exact List.mem_cons_of_mem _ hc')
          rw [ih cs k' (by simpa using Nat.le_of_succ_le_succ (by simpa using hl))
            (by omega) htail]

/-- Scanning with `m` cannot create a new occurrence of a
prefix-determined pattern `p`. -/
theorem scanSubF_hasB_preserve (m p : List Char → Option Nat) (hpos : MPos m)
    (hnext : MNext m) (hws : MWs m) (hp : PatSpec p) :
    ∀ fuel l, l.length ≤ fuel → hasB p (scanSubF m fuel l) = true →
      hasB p l = true := by
  intro fuel
  induction fuel with
  | zero =>
    intro l hl h
    have : l = [] := List.length_eq_zero.mp (by omega)
    subst this
    rw [scanSubF_nil] at h
    exact h
  | succ f ih =>
    intro l hl h
    cases l with
    | nil => rwa [scanSubF_nil] at h
    | cons c cs =>
      cases hm : m (c :: cs) with
      | some n =>
        simp only [scanSubF, hm] at h
        have hpos' := hpos _ _ hm
        have hdl : ((c :: cs).drop n).length ≤ f := by
          rw [List.length_drop]
          simp only [List.length_cons] at hl ⊢
          omega
        exact hasB_of_drop p n _ (ih _ hdl h)
      | none =>
        simp only [scanSubF, hm] at h
        rw [hasB] at h
        simp only [Bool.or_eq_true] at h
        rcases h with h | h
        · -- a match of `p` at the head of `c :: scanSubF m f cs`
          obtain ⟨k, hk1, hkle, hknw, htrans⟩ := hp _ h
          obtain ⟨k', rfl⟩ : ∃ k', k = k' + 1 := ⟨k - 1, by omega⟩
          have hlen' : k' ≤ (scanSubF m f cs).length := by
            simpa using hkle
          have htk : (scanSubF m f cs).take k' = cs.take k' := by
            apply scanSubF_take_eq m hpos hnext hws f cs k'
              (by simpa using Nat.le_of_succ_le_succ (by simpa using hl)) hlen'
            intro c' hc'
            exact hknw c' (by simp only [List.take_succ_cons]; exact List.mem_cons_of_mem _ hc')
          have hstart : (p (c :: cs)).isSome = true := by
            apply htrans
            · simp only [List.length_cons]
              have h1 : (scanSubF m f cs).length ≤ cs.length := scanSubF_length m f cs
              omega
            · simp only [List.take_succ_cons, htk]
          rw [hasB]
          simp only [Bool.or_eq_true]
          exact Or.inl hstart
        · rw [hasB]
          simp only [Bool.or_eq_true]
          exact Or.inr (ih cs (by simpa using Nat.le_of_succ_le_succ (by simpa using hl)) h)

/-- After `re.sub(pat, '', text)` the output contains no occurrence of
`pat`, for the prefix-determined, run-bounded patterns considered here. -/
theorem scanSubF_self_kill (m : List Char → Option Nat) (hpos : MPos m)
    (hnext : MNext m) (hws : MWs m) (hp : PatSpec m) :
    ∀ fuel l, l.length ≤ fuel → hasB m (scanSubF m fuel l) = false := by
  intro fuel
  induction fuel with
  | zero =>
    intro l hl
    have : l = [] := List.length_eq_zero.mp (by omega)
    subst this
    rw [scanSubF_nil]
    rfl
  | succ f ih =>
    intro l hl
    cases l with
    | nil => rw [scanSubF_nil]; rfl
    | cons c cs =>
      cases hm : m (c :: cs) with
      | some n =>
        simp only [scanSubF, hm]
        have hpos' := hpos _ _ hm
        apply ih
        rw [List.length_drop]
        simp only [List.length_cons] at hl ⊢
        omega
      | none =>
        simp only [scanSubF, hm]
        rw [hasB]
        have htail : hasB m (scanSubF m f cs) = false :=
          ih cs (by simpa using Nat.le_of_succ_le_succ (by simpa using hl))
        rw [htail]
        simp only [Bool.or_false]
        -- no match at the head either: it would transfer back to the input
        by_contra hcon
        rw [Bool.not_eq_false] at hcon
        obtain ⟨k, hk1, hkle, hknw, htrans⟩ := hp _ hcon
        obtain ⟨k', rfl⟩ : ∃ k', k = k' + 1 := ⟨k - 1, by omega⟩
        have hlen' : k' ≤ (scanSubF m f cs).length := by simpa using hkle
        have htk : (scanSubF m f cs).take k' = cs.take k' := by
          apply scanSubF_take_eq m hpos hnext hws f cs k'
            (by simpa using Nat.le_of_succ_le_succ (by simpa using hl)) hlen'
          intro c' hc'
          exact hknw c' (by simp only [List.take_succ_cons]; exact List.mem_cons_of_mem _ hc')
        have hstart : (m (c :: cs)).isSome = true := by
          apply htrans
          · simp only [List.length_cons]
            have h1 : (scanSubF m f cs).length ≤ cs.length := scanSubF_length m f cs
            omega
          · simp only [List.take_succ_cons, htk]
        rw [hm] at hstart
        simp at hstart

/-- If the pattern occurs nowhere in `l`, the substitution is the
identity. -/
theorem scanSubF_id (m : List Char → Option Nat) :
    ∀ fuel l, l.length ≤ fuel → hasB m l = false → scanSubF m fuel l = l := by
  intro fuel
  induction fuel with
  | zero =>
    intro l hl _
    have : l = [] := List.length_eq_zero.mp (by omega)
    subst this
    rw [scanSubF_nil]
  | succ f ih =>
    intro l hl h
    cases l with
    | nil => rw [scanSubF_nil]
    | cons c cs =>
      rw [hasB] at h
      simp only [Bool.or_eq_false_iff] at h
      obtain ⟨h1, h2⟩ := h
      have hm : m (c :: cs) = none := by
        rw [startB] at h1
        cases hmm : m (c :: cs) with
        | none => rfl
        | some v => rw [hmm] at h1; simp at h1
      simp only [scanSubF, hm]
      rw [ih cs (by simpa using Nat.le_of_succ_le_succ (by simpa using hl)) h2]

/-! ### Properties of the four match-length functions -/

theorem urlMatchLen_MPos : MPos urlMatchLen := by
  intro l n h
  unfold urlMatchLen at h
  split at h
  · split at h
    · simp at h
    · simp at h; omega
  · split at h
    · simp at h
    · simp at h; omega
  · simp at h

theorem urlMatchLen_MNext : MNext urlMatchLen := by
  intro l n c cs h hd
  unfold urlMatchLen at h
  split at h
  · next rest =>
    by_cases hz : (rest.takeWhile nonWs).length = 0
    · rw [if_pos hz] at h; simp at h
    · rw [if_neg hz] at h
      simp only [Option.some.injEq] at h
      have hP : ('h' :: 't' :: 't' :: 'p' :: 's' :: ':' :: '/' :: '/' ::rest : List Char) =
          (['h','t','t','p','s',':','/','/'] : List Char) ++ rest := rfl
      rw [hP, ← h] at hd
      have hdd : List.drop (8 + (rest.takeWhile nonWs).length)
          ((['h','t','t','p','s',':','/','/'] : List Char) ++ rest) =
          List.drop (rest.takeWhile nonWs).length rest := by
        simpa using @List.drop_append Char (['h','t','t','p','s',':','/','/'])
          rest (rest.takeWhile nonWs).length
      rw [hdd, ← dropWhile_eq_drop] at hd
      have := dropWhile_head_not nonWs rest c cs hd
      simpa [nonWs] using this
  · next rest =>
    by_cases hz : (rest.takeWhile nonWs).length = 0
    · rw [if_pos hz] at h; simp at h
    · rw [if_neg hz] at h
      simp only [Option.some.injEq] at h
      have hP : ('h' :: 't' :: 't' :: 'p' :: ':' :: '/' :: '/' ::rest : List Char) =
          (['h','t','t','p',':','/','/'] : List Char) ++ rest := rfl
      rw [hP, ← h] at hd
      have hdd : List.drop (7 + (rest.takeWhile nonWs).length)
          ((['h','t','t','p',':','/','/'] : List Char) ++ rest) =
          List.drop (rest.takeWhile nonWs).length rest := by
        simpa using @List.drop_append Char (['h','t','t','p',':','/','/'])
          rest (rest.takeWhile nonWs).length
      rw [hdd, ← dropWhile_eq_drop] at hd
      have := dropWhile_head_not nonWs rest c cs hd
      simpa [nonWs] using this
  · simp at h

theorem urlMatchLen_MWs : MWs urlMatchLen := by
  intro c cs h
  unfold urlMatchLen
  split
  · next heq =>
    exfalso
    obtain ⟨hc, -⟩ := List.cons.inj heq
    subst hc
    exact absurd h (by decide)
  · next heq =>
    exfalso
    obtain ⟨hc, -⟩ := List.cons.inj heq
    subst hc
    exact absurd h (by decide)
  · rfl

theorem urlMatchLen_PatSpec : PatSpec urlMatchLen := by
  intro l hs
  rw [Option.isSome_iff_exists] at hs
  obtain ⟨n, h⟩ := hs
  unfold urlMatchLen at h
  split at h
  · next rest =>
    by_cases hz : (rest.takeWhile nonWs).length = 0
    · rw [if_pos hz] at h; simp at h
    · obtain ⟨d, t, rfl, hd⟩ := takeWhile_len_ne_zero _ _ hz
      have h9 : List.take 9 ('h' :: 't' :: 't' :: 'p' :: 's' :: ':' :: '/' :: '/' ::d::t : List Char) =
          ['h','t','t','p','s',':','/','/',d] := rfl
      refine ⟨9, by omega, by simp, ?_, ?_⟩
      · intro c hc
        rw [h9] at hc
        simp at hc
        rcases hc with rfl | rfl | rfl | rfl | rfl | rfl | rfl | rfl | rfl <;>
          first | decide | exact hd
      · intro l' hlen htake
        have hl' : l' = (['h','t','t','p','s',':','/','/'] : List Char) ++
            (d :: l'.drop 9) := by
          have : l' = (['h','t','t','p','s',':','/','/',d] : List Char) ++ l'.drop 9 := by
            rw [← h9, ← htake, List.take_append_drop]
          simpa using this
        rw [hl']
        show (Option.isSome (if (List.takeWhile nonWs (d :: l'.drop 9)).length = 0 then none
          else some (8 + (List.takeWhile nonWs (d :: l'.drop 9)).length))) = true
        rw [List.takeWhile_cons_of_pos hd]
        simp
  · next rest =>
    by_cases hz : (rest.takeWhile nonWs).length = 0
    · rw [if_pos hz] at h; simp at h
    · obtain ⟨d, t, rfl, hd⟩ := takeWhile_len_ne_zero _ _ hz
      have h8 : List.take 8 ('h' :: 't' :: 't' :: 'p' :: ':' :: '/' :: '/' ::d::t : List Char) =
          ['h','t','t','p',':','/','/',d] := rfl
      refine ⟨8, by omega, by simp, ?_, ?_⟩
      · intro c hc
        rw [h8] at hc
        simp at hc
        rcases hc with rfl | rfl | rfl | rfl | rfl | rfl | rfl | rfl <;>
          first | decide | exact hd
      · intro l' hlen htake
        have hl' : l' = (['h','t','t','p',':','/','/'] : List Char) ++
            (d :: l'.drop 8) := by
          have : l' = (['h','t','t','p',':','/','/',d] : List Char) ++ l'.drop 8 := by
            rw [← h8, ← htake, List.take_append_drop]
          simpa using this
        rw [hl']
        show (Option.isSome (if (List.takeWhile nonWs (d :: l'.drop 8)).length = 0 then none
          else some (7 + (List.takeWhile nonWs (d :: l'.drop 8)).length))) = true
        rw [List.takeWhile_cons_of_pos hd]
        simp
  · simp at h

theorem emailRun_ne_nil (r : List Char) (h : emailRun r = true) : r ≠ [] := by
  intro hr
  subst hr
  simp [emailRun] at h

theorem emailMatchLen_MPos : MPos emailMatchLen := by
  intro l n h
  simp only [emailMatchLen] at h
  split at h
  · next he =>
    simp only [Option.some.injEq] at h
    have h1 := emailRun_ne_nil _ he
    have h2 : (l.takeWhile nonWs).length ≠ 0 := by
      simpa [List.length_eq_zero] using h1
    omega
  · simp at h

theorem emailMatchLen_MNext : MNext emailMatchLen := by
  intro l n c cs h hd
  simp only [emailMatchLen] at h
  split at h
  · simp only [Option.some.injEq] at h
    rw [← h, ← dropWhile_eq_drop] at hd
    have := dropWhile_head_not nonWs l c cs hd
    simpa [nonWs] using this
  · simp at h

theorem emailMatchLen_MWs : MWs emailMatchLen := by
  intro c cs h
  simp only [emailMatchLen]
  rw [List.takeWhile_cons_of_neg (by simp [nonWs, h])]
  simp [emailRun]

theorem longMatchLen_MPos : MPos longMatchLen := by
  intro l n h
  simp only [longMatchLen] at h
  split at h
  · next h50 =>
    simp only [Option.some.injEq] at h
    omega
  · simp at h

theorem longMatchLen_MNext : MNext longMatchLen := by
  intro l n c cs h hd
  simp only [longMatchLen] at h
  split at h
  · simp only [Option.some.injEq] at h
    rw [← h, ← dropWhile_eq_drop] at hd
    have := dropWhile_head_not nonWs l c cs hd
    simpa [nonWs] using this
  · simp at h

theorem longMatchLen_MWs : MWs longMatchLen := by
  intro c cs h
  simp only [longMatchLen]
  rw [List.takeWhile_cons_of_neg (by simp [nonWs, h])]
  simp

theorem noneMatchLen_PatSpec : PatSpec noneMatchLen := by
  intro l hs
  rw [Option.isSome_iff_exists] at hs
  obtain ⟨n, h⟩ := hs
  unfold noneMatchLen at h
  split at h
  · next rest =>
    have h4 : List.take 4 ('N' :: 'o' :: 'n' :: 'e' ::rest : List Char) = ['N','o','n','e'] := rfl
    refine ⟨4, by omega, by simp, ?_, ?_⟩
    · intro c hc
      rw [h4] at hc
      simp at hc
      rcases hc with rfl | rfl | rfl | rfl <;> decide
    · intro l' hlen htake
      have hl' : l' = ('N' :: 'o' :: 'n' :: 'e' ::(l'.drop 4) : List Char) := by
        have : l' = (['N','o','n','e'] : List Char) ++ l'.drop 4 := by
          rw [← h4, ← htake, List.take_append_drop]
        simpa using this
      rw [hl']
      rfl
  · simp at h

/-! ### Whitespace-collapse lemmas -/

theorem wsCollapse_ws_head : ∀ (ds : List Char) (d : Char), wsChar d = true →
    ∃ t, wsCollapse (d :: ds) = ' ' :: t := by
  intro ds
  induction ds with
  | nil =>
    intro d hd
    exact ⟨[], by simp [wsCollapse, hd]⟩
  | cons b rest ih =>
    intro d hd
    by_cases hb : wsChar b = true
    · have hcol : wsCollapse (d :: b :: rest) = wsCollapse (b :: rest) := by
        simp only [wsCollapse]
        rw [if_pos (by simp [hd, hb])]
      rw [hcol]
      exact ih b hb
    · have hcol : wsCollapse (d :: b :: rest) = ' ' :: wsCollapse (b :: rest) := by
        simp only [wsCollapse]
        rw [if_neg (by simp [hb]), if_pos hd]
      exact ⟨_, hcol⟩

theorem wsCollapse_take_eq : ∀ l k, k ≤ (wsCollapse l).length →
    (∀ c ∈ (wsCollapse l).take k, nonWs c = true) →
    (wsCollapse l).take k = l.take k := by
  intro l
  induction l using wsCollapse.induct with
  | case1 => intro k _ _; simp [wsCollapse]
  | case2 c h =>
    intro k hk hnw
    rw [wsCollapse, if_pos h] at hk hnw ⊢
    cases k with
    | zero => simp
    | succ k' =>
      exfalso
      have := hnw ' ' (by simp)
      simp [nonWs, wsChar] at this
  | case3 c h =>
    intro k hk hnw
    rw [wsCollapse, if_neg h]
  | case4 a b rest h ih =>
    intro k hk hnw
    have hcol : wsCollapse (a :: b :: rest) = wsCollapse (b :: rest) := by
      simp only [wsCollapse]
      rw [if_pos h]
    rw [hcol] at hk hnw ⊢
    have hb : wsChar b = true := (Bool.and_eq_true _ _ ▸ h).2
    obtain ⟨t, ht⟩ := wsCollapse_ws_head rest b hb
    rw [ht] at hk hnw ⊢
    cases k with
    | zero => simp
    | succ k' =>
      exfalso
      have := hnw ' ' (by simp)
      simp [nonWs, wsChar] at this
  | case5 a b rest h ih =>
    intro k hk hnw
    have hcol : wsCollapse (a :: b :: rest) =
        (if wsChar a then ' ' else a) :: wsCollapse (b :: rest) := by
      simp only [wsCollapse]
      rw [if_neg h]
    rw [hcol] at hk hnw ⊢
    cases k with
    | zero => simp
    | succ k' =>
      have hx : nonWs (if wsChar a then ' ' else a) = true :=
        hnw _ (by simp [List.take_succ_cons])
      have ha : wsChar a = false := by
        by_cases hws : wsChar a = true
        · rw [if_pos hws] at hx
          simp [nonWs, wsChar] at hx
        · simpa using hws
      have hxa : (if wsChar a then ' ' else a) = a := by rw [ha]; simp
      rw [hxa] at hk hnw ⊢
      simp only [List.take_succ_cons]
      simp only [List.length_cons] at hk
      congr 1
      apply ih k' (by omega)
      intro c' hc'
      exact hnw c' (by simp only [List.take_succ_cons]; exact List.mem_cons_of_mem _ hc')

theorem wsCollapse_hasB_preserve (p : List Char → Option Nat) (hp : PatSpec p) :
    ∀ l, hasB p (wsCollapse l) = true → hasB p l = true := by
  intro l
  induction l using wsCollapse.induct with
  | case1 => intro h; simpa [wsCollapse] using h
  | case2 c hc =>
    intro h
    rw [wsCollapse, if_pos hc] at h
    rw [hasB] at h
    simp only [Bool.or_eq_true] at h
    rcases h with h | h
    · exfalso
      obtain ⟨k, hk1, hkle, hknw, -⟩ := hp _ h
      have hmem : ' ' ∈ List.take k [' '] := by
        cases k with
        | zero => omega
        | succ k' => simp
      have := hknw _ hmem
      simp [nonWs, wsChar] at this
    · simp [hasB] at h
  | case3 c hc =>
    intro h
    rwa [wsCollapse, if_neg hc] at h
  | case4 a b rest h ih =>
    intro hh
    have hcol : wsCollapse (a :: b :: rest) = wsCollapse (b :: rest) := by
      simp only [wsCollapse]
      rw [if_pos h]
    rw [hcol] at hh
    exact hasB_of_suffix p (List.suffix_cons a _) (ih hh)
  | case5 a b rest h ih =>
    intro hh
    have hcol : wsCollapse (a :: b :: rest) =
        (if wsChar a then ' ' else a) :: wsCollapse (b :: rest) := by
      simp only [wsCollapse]
      rw [if_neg h]
    rw [hcol] at hh
    rw [hasB] at hh
    simp only [Bool.or_eq_true] at hh
    rcases hh with hh | hh
    · obtain ⟨k, hk1, hkle, hknw, htrans⟩ := hp _ hh
      obtain ⟨k', rfl⟩ : ∃ k', k = k' + 1 := ⟨k - 1, by omega⟩
      have hx : nonWs (if wsChar a then ' ' else a) = true :=
        hknw _ (by simp [List.take_succ_cons])
      have ha : wsChar a = false := by
        by_cases hws : wsChar a = true
        · rw [if_pos hws] at hx
          simp [nonWs, wsChar] at hx
        · simpa using hws
      have hxa : (if wsChar a then ' ' else a) = a := by rw [ha]; simp
      rw [hxa] at hknw htrans
      simp only [List.length_cons] at hkle
      have htk : (wsCollapse (b :: rest)).take k' = (b :: rest).take k' := by
        apply wsCollapse_take_eq _ k' (by omega)
        intro c' hc'
        exact hknw c' (by simp only [List.take_succ_cons]; exact List.mem_cons_of_mem _ hc')
      have hstart : (p (a :: b :: rest)).isSome = true := by
        apply htrans
        · simp only [List.length_cons]
          have := wsCollapse_length (b :: rest)
          simp only [List.length_cons] at this
          omega
        · simp only [List.take_succ_cons, htk]
      rw [hasB]
      simp only [Bool.or_eq_true]
      exact Or.inl hstart
    · exact hasB_of_suffix p (List.suffix_cons a _) (ih hh)

theorem wsCollapse_id : ∀ l : List Char, (∀ c ∈ l, wsChar c = true → c = ' ') →
    noAdjWs l = true → wsCollapse l = l := by
  intro l
  induction l using wsCollapse.induct with
  | case1 => intro _ _; rfl
  | case2 c h =>
    intro hsp _
    rw [wsCollapse, if_pos h]
    rw [hsp c (by simp) h]
  | case3 c h =>
    intro _ _
    rw [wsCollapse, if_neg h]
  | case4 a b rest h ih =>
    intro _ hadj
    exfalso
    rw [noAdjWs] at hadj
    simp only [Bool.and_eq_true, Bool.not_eq_true'] at hadj
    rw [hadj.1] at h
    simp at h
  | case5 a b rest h ih =>
    intro hsp hadj
    have hcol : wsCollapse (a :: b :: rest) =
        (if wsChar a then ' ' else a) :: wsCollapse (b :: rest) := by
      simp only [wsCollapse]
      rw [if_neg h]
    rw [hcol]
    have hadj' : noAdjWs (b :: rest) = true := by
      rw [noAdjWs] at hadj
      exact (Bool.and_eq_true _ _ ▸ hadj).2
    have hx : (if wsChar a then ' ' else a) = a := by
      by_cases hws : wsChar a = true
      · rw [if_pos hws, hsp a (by simp) hws]
      · simp [hws]
    rw [hx, ih (fun c hc hw => hsp c (List.mem_cons_of_mem _ hc) hw) hadj']

/-! ### Strip lemmas -/

theorem stripList_idem (l : List Char) : stripList (stripList l) = stripList l := by
  unfold stripList
  have h1 : (((l.dropWhile (wsChar ·)).rdropWhile (wsChar ·)).dropWhile (wsChar ·)) =
      ((l.dropWhile (wsChar ·)).rdropWhile (wsChar ·)) := by
    cases hB : (l.dropWhile (wsChar ·)).rdropWhile (wsChar ·) with
    | nil => rfl
    | cons b B' =>
      have hpre := List.rdropWhile_prefix (fun c => wsChar c) (l.dropWhile (wsChar ·))
      rw [hB] at hpre
      obtain ⟨t, htt⟩ := hpre
      have hb : wsChar b = false := by
        apply dropWhile_head_not (fun c => wsChar c) l b (B' ++ t)
        rw [← htt]
        simp
      rw [List.dropWhile_cons_of_neg (by simp [hb])]
  rw [h1, List.rdropWhile_idempotent]

theorem stripList_hasB_preserve (p : List Char → Option Nat) (hp : PatSpec p)
    (l : List Char) (h : hasB p (stripList l) = true) : hasB p l = true := by
  unfold stripList at h
  have h2 : hasB p (l.dropWhile (wsChar ·)) = true :=
    hasB_of_isPrefix p hp ( List.rdropWhile_prefix _ _) h
  exact hasB_of_suffix p (List.dropWhile_suffix _) h2

/-! ### Composing the pipeline -/

theorem scanSub_keeps_hasB_false (m p : List Char → Option Nat) (hpos : MPos m)
    (hnext : MNext m) (hws : MWs m) (hp : PatSpec p) (l : List Char)
    (h : hasB p l = false) : hasB p (scanSub m l) = false := by
  cases hc : hasB p (scanSub m l) with
  | false => rfl
  | true =>
    have := scanSubF_hasB_preserve m p hpos hnext hws hp l.length l le_rfl hc
    rw [this] at h
    exact absurd h (by simp)

theorem wsCollapse_keeps_hasB_false (p : List Char → Option Nat) (hp : PatSpec p)
    (l : List Char) (h : hasB p l = false) : hasB p (wsCollapse l) = false := by
  cases hc : hasB p (wsCollapse l) with
  | false => rfl
  | true =>
    have := wsCollapse_hasB_preserve p hp l hc
    rw [this] at h
    exact absurd h (by simp)

theorem stripList_keeps_hasB_false (p : List Char → Option Nat) (hp : PatSpec p)
    (l : List Char) (h : hasB p l = false) : hasB p (stripList l) = false := by
  cases hc : hasB p (stripList l) with
  | false => rfl
  | true =>
    have := stripList_hasB_preserve p hp l hc
    rw [this] at h
    exact absurd h (by simp)

theorem scanSub_id (m : List Char → Option Nat) (l : List Char)
    (h : hasB m l = false) : scanSub m l = l :=
  scanSubF_id m l.length l le_rfl h

/-! ### The `None`-removal pass cannot create an email match

`re.sub(r'None', '', text)` deletes blocks of non-whitespace characters
from inside non-whitespace runs.  An email occurrence `\S+@\S+\.\S+` is
an existential property of a run that is monotone under re-inserting
non-whitespace characters, so a deletion of `None` blocks can never
create one.  `DelNW` captures the deletion relation, `emailShape` the
occurrence property. -/

theorem DelNW_refl : ∀ l : List Char, DelNW l l := by
  intro l
  induction l with
  | nil => exact DelNW.nil
  | cons c cs ih => exact DelNW.keep c ih

theorem DelNW_length {out l : List Char} (h : DelNW out l) :
    out.length ≤ l.length := by
  induction h with
  | nil => exact le_rfl
  | keep c _ ih => simpa using Nat.succ_le_succ ih
  | del c hc _ ih => exact le_trans ih (by simp)

theorem DelNW_nonws {out l : List Char} (h : DelNW out l) :
    (∀ c ∈ out, wsChar c = false) → ∀ c ∈ l, wsChar c = false := by
  induction h with
  | nil => intro _ c hc; simp at hc
  | keep c _ ih =>
    intro hout d hd
    rcases List.mem_cons.mp hd with rfl | hd
    · exact hout d (by simp)
    · exact ih (fun e he => hout e (by simp [he])) d hd
  | del c hc _ ih =>
    intro hout d hd
    rcases List.mem_cons.mp hd with rfl | hd
    · exact hc
    · exact ih hout d hd

theorem DelNW_append_inv {out l : List Char} (h : DelNW out l) :
    ∀ p r, out = p ++ r →
      ∃ l₁ l₂, l = l₁ ++ l₂ ∧ DelNW p l₁ ∧ DelNW r l₂ := by
  induction h with
  | nil =>
    intro p r hpr
    obtain ⟨rfl, rfl⟩ := List.append_eq_nil.mp hpr.symm
    exact ⟨[], [], rfl, DelNW.nil, DelNW.nil⟩
  | keep c hder ih =>
    intro p r hpr
    cases p with
    | nil =>
      refine ⟨[], _, rfl, DelNW.nil, ?_⟩
      simp only [List.nil_append] at hpr
      rw [← hpr]
      exact DelNW.keep c hder
    | cons a p' =>
      simp only [List.cons_append, List.cons.injEq] at hpr
      obtain ⟨rfl, hpr⟩ := hpr
      obtain ⟨l₁, l₂, rfl, h₁, h₂⟩ := ih p' r hpr
      exact ⟨c :: l₁, l₂, rfl, DelNW.keep c h₁, h₂⟩
  | del c hc hder ih =>
    intro p r hpr
    obtain ⟨l₁, l₂, rfl, h₁, h₂⟩ := ih p r hpr
    exact ⟨c :: l₁, l₂, rfl, DelNW.del c hc h₁, h₂⟩

theorem DelNW_cons_inv {out l : List Char} (h : DelNW out l) :
    ∀ c t, out = c :: t →
      ∃ ds l', l = ds ++ c :: l' ∧ (∀ a ∈ ds, wsChar a = false) ∧ DelNW t l' := by
  induction h with
  | nil => intro c t hct; simp at hct
  | keep d hder ih =>
    intro c t hct
    injection hct with h1 h2
    subst h1
    subst h2
    exact ⟨[], _, rfl, by simp, hder⟩
  | del d hd hder ih =>
    intro c t hct
    obtain ⟨ds, l', rfl, hds, ht⟩ := ih c t hct
    refine ⟨d :: ds, l', rfl, ?_, ht⟩
    intro a ha
    rcases List.mem_cons.mp ha with rfl | ha
    · exact hd
    · exact hds a ha

theorem noneMatchLen_some_inv (l : List Char) (n : Nat)
    (h : noneMatchLen l = some n) :
    n = 4 ∧ ∃ rest, l = 'N' :: 'o' :: 'n' :: 'e' :: rest := by
  unfold noneMatchLen at h
  split at h
  · next rest => exact ⟨(Option.some.inj h).symm, rest, rfl⟩
  · simp at h

theorem scanSubF_none_delNW :
    ∀ (fuel : Nat) (l : List Char), l.length ≤ fuel →
      DelNW (scanSubF noneMatchLen fuel l) l := by
  intro fuel
  induction fuel with
  | zero =>
    intro l hl
    obtain rfl : l = [] := List.length_eq_zero.mp (Nat.le_zero.mp hl)
    exact DelNW.nil
  | succ f ih =>
    intro l hl
    cases l with
    | nil => exact DelNW.nil
    | cons c cs =>
      cases hm : noneMatchLen (c :: cs) with
      | none =>
        have hstep : scanSubF noneMatchLen (f + 1) (c :: cs) =
            c :: scanSubF noneMatchLen f cs := by
          simp only [scanSubF, hm]
        rw [hstep]
        exact DelNW.keep c (ih cs (by simpa using Nat.le_of_succ_le_succ hl))
      | some n =>
        obtain ⟨rfl, rest, hrest⟩ := noneMatchLen_some_inv _ _ hm
        have hstep : scanSubF noneMatchLen (f + 1) (c :: cs) =
            scanSubF noneMatchLen f ((c :: cs).drop 4) := by
          simp only [scanSubF, hm]
        rw [hstep, hrest]
        have hlen : rest.length ≤ f := by
          have hcs := congrArg List.length hrest
          simp only [List.length_cons] at hcs hl
          omega
        show DelNW (scanSubF noneMatchLen f rest) ('N' :: 'o' :: 'n' :: 'e' :: rest)
        exact DelNW.del 'N' (by decide) (DelNW.del 'o' (by decide)
          (DelNW.del 'n' (by decide) (DelNW.del 'e' (by decide) (ih rest hlen))))

theorem dotCfg_shapeB (B : List Char) (z : Char) (tq : List Char) (hB : B ≠ []) :
    dotCfg (B ++ '.' :: z :: tq) = true := by
  obtain ⟨b, B', rfl⟩ : ∃ b B', B = b :: B' := by
    cases B with
    | nil => exact absurd rfl hB
    | cons b B' => exact ⟨b, B', rfl⟩
  unfold dotCfg
  have h1 : ((b :: B') ++ '.' :: z :: tq).drop 1 = B' ++ '.' :: z :: tq := rfl
  rw [h1]
  have h2 : (B' ++ '.' :: z :: tq).dropLast = B' ++ '.' :: (z :: tq).dropLast := by
    rw [List.dropLast_append_cons]
    rfl
  rw [h2]
  simp

theorem atThenDot_shapeB :
    ∀ (t1 B : List Char) (z : Char) (tq : List Char), B ≠ [] →
      atThenDot (t1 ++ '@' :: (B ++ '.' :: z :: tq)) = true := by
  intro t1
  induction t1 with
  | nil =>
    intro B z tq hB
    show atThenDot ('@' :: (B ++ '.' :: z :: tq)) = true
    simp [atThenDot, dotCfg_shapeB B z tq hB]
  | cons c t ih =>
    intro B z tq hB
    show atThenDot (c :: (t ++ '@' :: (B ++ '.' :: z :: tq))) = true
    simp [atThenDot, ih B z tq hB]

theorem atThenDot_decomp : ∀ t : List Char, atThenDot t = true →
    ∃ t1 t2, t = t1 ++ '@' :: t2 ∧ dotCfg t2 = true := by
  intro t
  induction t with
  | nil => intro h; simp [atThenDot] at h
  | cons c rest ih =>
    intro h
    simp only [atThenDot, Bool.or_eq_true, Bool.and_eq_true, decide_eq_true_eq] at h
    rcases h with ⟨rfl, hd⟩ | h2
    · exact ⟨[], rest, rfl, hd⟩
    · obtain ⟨t1, t2, rfl, hd⟩ := ih h2
      exact ⟨c :: t1, t2, rfl, hd⟩

theorem dotCfg_decomp (t2 : List Char) (h : dotCfg t2 = true) :
    ∃ B z q, t2 = B ++ '.' :: z :: q ∧ B ≠ [] := by
  unfold dotCfg at h
  have hmem : '.' ∈ (t2.drop 1).dropLast := by simpa using h
  obtain ⟨α, β, hαβ⟩ := List.append_of_mem hmem
  cases t2 with
  | nil => simp at hmem
  | cons h0 rest =>
    have hrest : rest.dropLast = α ++ '.' :: β := by simpa using hαβ
    have hrne : rest ≠ [] := by
      intro hr
      rw [hr] at hrest
      simp at hrest
    obtain ⟨w, hsplit⟩ : ∃ w, rest = (α ++ '.' :: β) ++ [w] := by
      refine ⟨rest.getLast hrne, ?_⟩
      conv_lhs => rw [← List.dropLast_append_getLast hrne]
      rw [hrest]
    cases β with
    | nil => exact ⟨h0 :: α, w, [], by simp [hsplit], by simp⟩
    | cons b β' => exact ⟨h0 :: α, b, β' ++ [w], by simp [hsplit], by simp⟩

theorem emailMatchLen_isSome_of_shape (A B : List Char) (z : Char) (q : List Char)
    (hA : A ≠ []) (hB : B ≠ []) (hAw : ∀ c ∈ A, wsChar c = false)
    (hBw : ∀ c ∈ B, wsChar c = false) (hz : wsChar z = false) :
    (emailMatchLen (A ++ '@' :: (B ++ '.' :: z :: q))).isSome = true := by
  have hPw : ∀ c ∈ (A ++ '@' :: (B ++ '.' :: [z])), nonWs c = true := by
    intro c hc
    rcases List.mem_append.mp hc with hc | hc
    · simp [nonWs, hAw c hc]
    rcases List.mem_cons.mp hc with rfl | hc
    · decide
    rcases List.mem_append.mp hc with hc | hc
    · simp [nonWs, hBw c hc]
    rcases List.mem_cons.mp hc with rfl | hc
    · decide
    obtain rfl := List.mem_singleton.mp hc
    simp [nonWs, hz]
  have hsplit : A ++ '@' :: (B ++ '.' :: z :: q)
      = (A ++ '@' :: (B ++ '.' :: [z])) ++ q := by
    simp
  have htw : (A ++ '@' :: (B ++ '.' :: z :: q)).takeWhile nonWs
      = (A ++ '@' :: (B ++ '.' :: [z])) ++ q.takeWhile nonWs := by
    rw [hsplit]
    exact takeWhile_append_all nonWs _ q hPw
  obtain ⟨a0, A', rfl⟩ : ∃ a0 A', A = a0 :: A' := by
    cases A with
    | nil => exact absurd rfl hA
    | cons a0 A' => exact ⟨a0, A', rfl⟩
  have hrun : emailRun (((a0 :: A') ++ '@' :: (B ++ '.' :: [z])) ++ q.takeWhile nonWs)
      = true := by
    have hre : ((a0 :: A') ++ '@' :: (B ++ '.' :: [z])) ++ q.takeWhile nonWs
        = a0 :: (A' ++ '@' :: (B ++ '.' :: z :: q.takeWhile nonWs)) := by
      simp
    rw [hre]
    show atThenDot (A' ++ '@' :: (B ++ '.' :: z :: q.takeWhile nonWs)) = true
    exact atThenDot_shapeB A' B z _ hB
  simp only [emailMatchLen, htw, hrun]
  simp

theorem emailMatchLen_isSome_decomp (l : List Char)
    (h : (emailMatchLen l).isSome = true) :
    ∃ A B z q, l = A ++ '@' :: (B ++ '.' :: z :: q) ∧ A ≠ [] ∧ B ≠ [] ∧
      (∀ c ∈ A, wsChar c = false) ∧ (∀ c ∈ B, wsChar c = false) ∧
      wsChar z = false := by
  simp only [emailMatchLen] at h
  split at h
  · next he =>
    obtain ⟨x, t, hxt⟩ : ∃ x t, l.takeWhile nonWs = x :: t := by
      cases hr : l.takeWhile nonWs with
      | nil => rw [hr] at he; simp [emailRun] at he
      | cons x t => exact ⟨x, t, rfl⟩
    have hat : atThenDot t = true := by
      rw [hxt] at he
      simpa [emailRun] using he
    obtain ⟨t1, t2, rfl, hd⟩ := atThenDot_decomp t hat
    obtain ⟨B, z, q0, rfl, hB⟩ := dotCfg_decomp t2 hd
    have hrun : ∀ c ∈ (x :: (t1 ++ '@' :: (B ++ '.' :: z :: q0))), wsChar c = false := by
      intro c hc
      rw [← hxt] at hc
      have := List.mem_takeWhile_imp hc
      simpa [nonWs] using this
    refine ⟨x :: t1, B, z, q0 ++ l.dropWhile nonWs, ?_, by simp, hB, ?_, ?_, ?_⟩
    · conv_lhs => rw [← List.takeWhile_append_dropWhile nonWs l]
      rw [hxt]
      simp
    · intro c hc
      apply hrun
      rcases List.mem_cons.mp hc with rfl | hc
      · simp
      · simp [hc]
    · intro c hc
      apply hrun
      simp [hc]
    · apply hrun
      simp
  · simp at h

theorem hasB_decomp (p : List Char → Option Nat) :
    ∀ l : List Char, hasB p l = true →
      ∃ l₁ l₂, l = l₁ ++ l₂ ∧ (p l₂).isSome = true := by
  intro l
  induction l with
  | nil => intro h; simp [hasB] at h
  | cons c cs ih =>
    intro h
    simp only [hasB, startB, Bool.or_eq_true] at h
    rcases h with h | h
    · exact ⟨[], c :: cs, rfl, h⟩
    · obtain ⟨l₁, l₂, rfl, hp⟩ := ih h
      exact ⟨c :: l₁, l₂, rfl, hp⟩

theorem emailShape_of_hasB (l : List Char) (h : hasB emailMatchLen l = true) :
    emailShape l := by
  obtain ⟨l₁, l₂, rfl, hp⟩ := hasB_decomp emailMatchLen l h
  obtain ⟨A, B, z, q, hEq, hA, hB, hAw, hBw, hz⟩ := emailMatchLen_isSome_decomp l₂ hp
  refine ⟨l₁, A, B, z, q, ?_, hA, hB, hAw, hBw, hz⟩
  rw [hEq]
  simp

theorem hasB_of_emailShape (l : List Char) (h : emailShape l) :
    hasB emailMatchLen l = true := by
  obtain ⟨p, A, B, z, q, rfl, hA, hB, hAw, hBw, hz⟩ := h
  have hsome := emailMatchLen_isSome_of_shape A B z q hA hB hAw hBw hz
  have hsuf : hasB emailMatchLen (A ++ '@' :: (B ++ '.' :: z :: q)) = true := by
    obtain ⟨a0, A', rfl⟩ : ∃ a0 A', A = a0 :: A' := by
      cases A with
      | nil => exact absurd rfl hA
      | cons a0 A' => exact ⟨a0, A', rfl⟩
    show hasB emailMatchLen (a0 :: (A' ++ '@' :: (B ++ '.' :: z :: q))) = true
    simp only [hasB, startB, Bool.or_eq_true]
    left
    have hre : (a0 :: A') ++ '@' :: (B ++ '.' :: z :: q)
        = a0 :: (A' ++ '@' :: (B ++ '.' :: z :: q)) := by simp
    rw [← hre]
    exact hsome
  have hre : (p ++ A) ++ '@' :: (B ++ '.' :: z :: q)
      = p ++ (A ++ '@' :: (B ++ '.' :: z :: q)) := by simp
  rw [hre]
  exact hasB_append_right emailMatchLen p _ hsuf

theorem DelNW_emailShape {out l : List Char} (hdel : DelNW out l)
    (h : emailShape out) : emailShape l := by
  obtain ⟨p, A, B, z, q, hEq, hA, hB, hAw, hBw, hz⟩ := h
  have hEq' : out = p ++ (A ++ '@' :: (B ++ '.' :: z :: q)) := by
    rw [hEq]
    simp
  obtain ⟨L0, l₂, rfl, -, h₂⟩ := DelNW_append_inv hdel p _ hEq'
  obtain ⟨LA, l₃, rfl, hLA, h₃⟩ := DelNW_append_inv h₂ A _ rfl
  obtain ⟨d1, l₄, rfl, hd1, h₄⟩ := DelNW_cons_inv h₃ '@' _ rfl
  obtain ⟨LB, l₅, rfl, hLB, h₅⟩ := DelNW_append_inv h₄ B _ rfl
  obtain ⟨d3, l₆, rfl, hd3, h₆⟩ := DelNW_cons_inv h₅ '.' _ rfl
  obtain ⟨d4, l₇, rfl, hd4, -⟩ := DelNW_cons_inv h₆ z _ rfl
  have hLAw : ∀ c ∈ LA, wsChar c = false := DelNW_nonws hLA hAw
  have hLBw : ∀ c ∈ LB, wsChar c = false := DelNW_nonws hLB hBw
  have hLAne : LA ≠ [] := by
    intro h0
    have hlen := DelNW_length hLA
    rw [h0] at hlen
    simp only [List.length_nil, Nat.le_zero] at hlen
    exact hA (List.length_eq_zero.mp hlen)
  have hLBne : LB ≠ [] := by
    intro h0
    have hlen := DelNW_length hLB
    rw [h0] at hlen
    simp only [List.length_nil, Nat.le_zero] at hlen
    exact hB (List.length_eq_zero.mp hlen)
  have hABw : ∀ c ∈ LA ++ d1, wsChar c = false := by
    intro c hc
    rcases List.mem_append.mp hc with hc | hc
    · exact hLAw c hc
    · exact hd1 c hc
  have hBBw : ∀ c ∈ LB ++ d3, wsChar c = false := by
    intro c hc
    rcases List.mem_append.mp hc with hc | hc
    · exact hLBw c hc
    · exact hd3 c hc
  have hABne : LA ++ d1 ≠ [] := fun h0 => hLAne (List.append_eq_nil.mp h0).1
  have hBBne : LB ++ d3 ≠ [] := fun h0 => hLBne (List.append_eq_nil.mp h0).1
  cases d4 with
  | nil =>
    refine ⟨L0, LA ++ d1, LB ++ d3, z, l₇, ?_, hABne, hBBne, hABw, hBBw, hz⟩
    simp
  | cons w d4' =>
    refine ⟨L0, LA ++ d1, LB ++ d3, w, d4' ++ z :: l₇, ?_, hABne, hBBne, hABw, hBBw,
      hd4 w (by simp)⟩
    simp

theorem scanSub_none_keeps_email (l : List Char)
    (h : hasB emailMatchLen l = false) :
    hasB emailMatchLen (scanSub noneMatchLen l) = false := by
  cases hc : hasB emailMatchLen (scanSub noneMatchLen l) with
  | false => rfl
  | true =>
    have hdel : DelNW (scanSub noneMatchLen l) l :=
      scanSubF_none_delNW l.length l le_rfl
    have hsh := emailShape_of_hasB _ hc
    have htr := hasB_of_emailShape l (DelNW_emailShape hdel hsh)
    rw [htr] at h
    exact absurd h (by simp)

theorem emailMatchLen_PatSpec : PatSpec emailMatchLen := by
  intro l hs
  obtain ⟨A, B, z, q, hEq, hA, hB, hAw, hBw, hz⟩ := emailMatchLen_isSome_decomp l hs
  have hPq : l = (A ++ '@' :: (B ++ '.' :: [z])) ++ q := by
    rw [hEq]
    simp
  have hPw : ∀ c ∈ (A ++ '@' :: (B ++ '.' :: [z])), nonWs c = true := by
    intro c hc
    rcases List.mem_append.mp hc with hc | hc
    · simp [nonWs, hAw c hc]
    rcases List.mem_cons.mp hc with rfl | hc
    · decide
    rcases List.mem_append.mp hc with hc | hc
    · simp [nonWs, hBw c hc]
    rcases List.mem_cons.mp hc with rfl | hc
    · decide
    obtain rfl := List.mem_singleton.mp hc
    simp [nonWs, hz]
  refine ⟨(A ++ '@' :: (B ++ '.' :: [z])).length, ?_, ?_, ?_, ?_⟩
  · simp only [List.length_append, List.length_cons]
    omega
  · rw [hPq]
    simp only [List.length_append]
    omega
  · rw [hPq, List.take_left]
    exact hPw
  · intro l' hlen htake
    have htakeP : l.take (A ++ '@' :: (B ++ '.' :: [z])).length
        = A ++ '@' :: (B ++ '.' :: [z]) := by
      rw [hPq]
      exact List.take_left _ _
    rw [htakeP] at htake
    have hl' : l' = (A ++ '@' :: (B ++ '.' :: [z]))
        ++ l'.drop (A ++ '@' :: (B ++ '.' :: [z])).length := by
      conv_lhs => rw [← List.take_append_drop ((A ++ '@' :: (B ++ '.' :: [z])).length) l']
      rw [htake]
    rw [hl']
    have hre : (A ++ '@' :: (B ++ '.' :: [z]))
          ++ l'.drop (A ++ '@' :: (B ++ '.' :: [z])).length
        = A ++ '@' :: (B ++ '.' :: z :: l'.drop (A ++ '@' :: (B ++ '.' :: [z])).length) := by
      simp
    rw [hre]
    exact emailMatchLen_isSome_of_shape A B z _ hA hB hAw hBw hz

/-! ## Claim C3 -/

/-- C3 counterexample.  `clean_text "httpNone://x"` is `"http://x"`, which
contains a substring matching the absolute-URL pattern `https?://\S+`:
the `None`-removal step (step 3) can splice a URL together after the
URL-removal step (step 1) has already run. -/
theorem clean_text_url_counterexample :
    clean_text "httpNone://x" = "http://x" ∧
      hasB urlMatchLen (clean_text "httpNone://x").data = true := by
  constructor
  · decide
  · decide

/-- C3 amended.  For every input, the output of `clean_text` contains no
substring matching the email pattern `\S+@\S+\.\S+`; and for every input
that contains no occurrence of the literal `None`, it also contains no
substring matching the absolute-URL pattern `https?://\S+`.  The email
half is unconditional: the email-removal pass eliminates all email-shaped
tokens, the `None`-removal pass deletes only non-whitespace characters
and an email occurrence is monotone under re-inserting those, and the
remaining passes cannot splice a match either.  The URL half needs the
no-`None` hypothesis because the `None`-removal step, which runs after
the URL removal, can splice a URL together (see the counterexample). -/
theorem clean_text_no_email_no_url (s : String) :
    hasB emailMatchLen (clean_text s).data = false ∧
    (hasB noneMatchLen s.data = false →
      hasB urlMatchLen (clean_text s).data = false) := by
  constructor
  · show hasB emailMatchLen (cleanList s.data) = false
    unfold cleanList
    have hEm1 : hasB emailMatchLen (scanSub emailMatchLen (scanSub urlMatchLen s.data))
        = false :=
      scanSubF_self_kill emailMatchLen emailMatchLen_MPos emailMatchLen_MNext
        emailMatchLen_MWs emailMatchLen_PatSpec _ _ le_rfl
    have hEm2 := scanSub_none_keeps_email _ hEm1
    have hEm3 := wsCollapse_keeps_hasB_false _ emailMatchLen_PatSpec _ hEm2
    have hEm4 := scanSub_keeps_hasB_false _ _ longMatchLen_MPos longMatchLen_MNext
      longMatchLen_MWs emailMatchLen_PatSpec _ hEm3
    exact stripList_keeps_hasB_false _ emailMatchLen_PatSpec _ hEm4
  · intro hnone
    show hasB urlMatchLen (cleanList s.data) = false
    unfold cleanList
    have hUrl1 : hasB urlMatchLen (scanSub urlMatchLen s.data) = false :=
      scanSubF_self_kill urlMatchLen urlMatchLen_MPos urlMatchLen_MNext urlMatchLen_MWs
        urlMatchLen_PatSpec _ _ le_rfl
    have hNone1 : hasB noneMatchLen (scanSub urlMatchLen s.data) = false :=
      scanSub_keeps_hasB_false _ _ urlMatchLen_MPos urlMatchLen_MNext urlMatchLen_MWs
        noneMatchLen_PatSpec _ hnone
    have hUrl2 : hasB urlMatchLen (scanSub emailMatchLen (scanSub urlMatchLen s.data)) = false :=
      scanSub_keeps_hasB_false _ _ emailMatchLen_MPos emailMatchLen_MNext emailMatchLen_MWs
        urlMatchLen_PatSpec _ hUrl1
    have hNone2 : hasB noneMatchLen (scanSub emailMatchLen (scanSub urlMatchLen s.data)) = false :=
      scanSub_keeps_hasB_false _ _ emailMatchLen_MPos emailMatchLen_MNext emailMatchLen_MWs
        noneMatchLen_PatSpec _ hNone1
    rw [scanSub_id _ _ hNone2]
    have hUrl3 := wsCollapse_keeps_hasB_false _ urlMatchLen_PatSpec _ hUrl2
    have hUrl4 := scanSub_keeps_hasB_false _ _ longMatchLen_MPos longMatchLen_MNext
      longMatchLen_MWs urlMatchLen_PatSpec _ hUrl3
    exact stripList_keeps_hasB_false _ urlMatchLen_PatSpec _ hUrl4

/-- Witness for the amended C3 at a concrete input that contains an
email-shaped token, a URL-shaped token and no literal `None`. -/
theorem clean_text_no_email_no_url_witness :
    hasB noneMatchLen "mail a@b.com or see https://x.io".data = false ∧
    hasB emailMatchLen (clean_text "mail a@b.com or see https://x.io").data = false ∧
    hasB urlMatchLen (clean_text "mail a@b.com or see https://x.io").data = false :=
  ⟨by decide, (clean_text_no_email_no_url "mail a@b.com or see https://x.io").1,
    (clean_text_no_email_no_url "mail a@b.com or see https://x.io").2 (by decide)⟩

/-! ## Claim C2 -/

/-- C2 counterexample.  On `"a " ++ 50·'z' ++ " b"` the normalizer is not
idempotent: the garbage-token removal (step 5) runs after the whitespace
collapse (step 4) and leaves the two spaces around the deleted token
adjacent, so the first application yields `"a  b"` and a second one
collapses the double space to `"a b"`. -/
theorem clean_text_not_idempotent :
    clean_text (clean_text ⟨'a' :: ' ' :: (List.replicate 50 'z' ++ [' ', 'b'])⟩) ≠
      clean_text ⟨'a' :: ' ' :: (List.replicate 50 'z' ++ [' ', 'b'])⟩ := by
  decide

/-- C2 amended.  `clean_text` is idempotent on every input whose output
is a fixed point of each pass: no URL-shaped token, no email-shaped
token, no occurrence of `None`, no 50+-character token, and no two
adjacent whitespace characters in the output.  (In general idempotence
fails: garbage-token removal runs after the whitespace collapse and can
leave a double space, and `None`-removal can splice new matches
together.) -/
theorem clean_text_idempotent_of_clean (s : String)
    (hurl : hasB urlMatchLen (clean_text s).data = false)
    (hemail : hasB emailMatchLen (clean_text s).data = false)
    (hnone : hasB noneMatchLen (clean_text s).data = false)
    (hlong : hasB longMatchLen (clean_text s).data = false)
    (hadj : noAdjWs (clean_text s).data = true) :
    clean_text (clean_text s) = clean_text s := by
  have hy : (clean_text s).data = cleanList s.data := rfl
  show (⟨cleanList (clean_text s).data⟩ : String) = clean_text s
  have hsp : ∀ c ∈ (clean_text s).data, wsChar c = true → c = ' ' := by
    intro c hc hw
    exact wsCollapse_ws_space _ c (cleanList_subset_collapse s.data c hc) hw
  have hcl : cleanList (clean_text s).data = (clean_text s).data := by
    unfold cleanList
    rw [scanSub_id _ _ hurl]
    rw [scanSub_id _ _ hemail]
    rw [scanSub_id _ _ hnone]
    rw [wsCollapse_id _ hsp hadj]
    rw [scanSub_id _ _ hlong]
    show stripList (cleanList s.data) = cleanList s.data
    unfold cleanList
    exact stripList_idem _
  rw [hcl]

/-- Witness for the amended C2 at a concrete input. -/
theorem clean_text_idempotent_witness :
    clean_text (clean_text "ab cd") = clean_text "ab cd" :=
  clean_text_idempotent_of_clean "ab cd" (by decide) (by decide) (by decide)
    (by decide) (by decide)

/-! ## Claim C10: `clean_text` is length non-increasing -/

/-- C10.  For every input string `x`, `len(clean_text(x)) ≤ len(x)`: each
of the five substitutions and the final strip only deletes characters or
replaces a whitespace run of length at least one by a single space. -/
theorem clean_text_length_le (s : String) : (clean_text s).length ≤ s.length := by
  show (cleanList s.data).length ≤ s.data.length
  calc (cleanList s.data).length
      ≤ (scanSub longMatchLen (wsCollapse (scanSub noneMatchLen
          (scanSub emailMatchLen (scanSub urlMatchLen s.data))))).length :=
        (stripList_sublist _).length_le
    _ ≤ (wsCollapse (scanSub noneMatchLen
          (scanSub emailMatchLen (scanSub urlMatchLen s.data)))).length :=
        scanSubF_length _ _ _
    _ ≤ (scanSub noneMatchLen
          (scanSub emailMatchLen (scanSub urlMatchLen s.data))).length :=
        wsCollapse_length _
    _ ≤ (scanSub emailMatchLen (scanSub urlMatchLen s.data)).length :=
        scanSubF_length _ _ _
    _ ≤ (scanSub urlMatchLen s.data).length := scanSubF_length _ _ _
    _ ≤ s.data.length := scanSubF_length _ _ _

/-! ## Claim C8: whitespace in the output of `clean_text` is only `' '` -/

/-- C8.  Every whitespace character in the output of `clean_text` is a
plain space: the whitespace collapse rewrites every whitespace run to a
single `' '`, and the later steps (garbage-token removal and strip) only
delete characters. -/
theorem clean_text_ws_is_space (s : String) (c : Char)
    (hc : c ∈ (clean_text s).data) (hw : wsChar c = true) : c = ' ' := by
  have h1 : c ∈ wsCollapse (scanSub noneMatchLen
      (scanSub emailMatchLen (scanSub urlMatchLen s.data))) := by
    have h0 : c ∈ cleanList s.data := hc
    have h2 := (stripList_sublist _).subset h0
    exact scanSubF_subset _ _ _ _ h2
  exact wsCollapse_ws_space _ c h1 hw

/-- Witness for C8 at a concrete input: the output of
`clean_text "a \t b"` contains the space character, which is whitespace,
and the theorem forces it to be `' '`. -/
theorem clean_text_ws_is_space_witness :
    ' ' = ' ' :=
  clean_text_ws_is_space "a \t b" ' ' (by decide) (by decide)

/-! ## Claim C7: the XLSX scenario -/

/-- C7.  A workbook with a single sheet `Q1` holding one row
`[10, None, "ok"]` extracts to exactly `"Sheet: Q1\n10 |  | ok\n"`:
header line, then the row with cell values pipe-joined and `None`
rendered as the empty string. -/
theorem xlsx_scenario :
    xlsxText [("Q1", [[some (.int 10), none, some (.str "ok")]])] =
      "Sheet: Q1\n10 |  | ok\n" := by
  decide

/-! ## Claim C1 -/

/-- C1.  Every record the orchestrator keeps has non-empty content of at
most 10000 characters: `process_url` truncates with `[:10000]` when the
record is built, and `main` drops records with falsy content. -/
theorem main_results_content (env : PipelineEnv) (urls : List String)
    (r : ContentRecord) (hr : r ∈ main_results env urls) :
    r.content ≠ "" ∧ r.content.length ≤ 10000 := by
  unfold main_results at hr
  obtain ⟨hmem, hne⟩ := List.mem_filter.mp hr
  refine ⟨by simpa using hne, ?_⟩
  obtain ⟨u, -, rfl⟩ := List.mem_map.mp hmem
  show (takeStr 10000 _).length ≤ 10000
  unfold takeStr
  show (List.take 10000 _).length ≤ 10000
  rw [List.length_take]
  exact min_le_left _ _

/-- Witness for C1 at a concrete environment and seed list. -/
theorem main_results_content_witness :
    (⟨"http://e.x", "hello"⟩ : ContentRecord).content ≠ "" ∧
    (⟨"http://e.x", "hello"⟩ : ContentRecord).content.length ≤ 10000 :=
  main_results_content ⟨fun _ => ("hello", []), fun _ => ""⟩ ["http://e.x"] _ (by decide)

/-! ## Claim C6 -/

/-- C6 counterexample.  A surfaced `301` response (non-2xx, e.g. a
redirect without a usable `Location`) is not treated as a failure:
`raise_for_status` raises only for 4xx/5xx, so `crawl_page` proceeds to
parse the body and returns its text instead of `("", [])`. -/
theorem crawl_page_non2xx_counterexample :
    crawl_page "http://s.example" (.ok 301 "text/html" "" "hello" []) = ("hello", []) ∧
    crawl_page "http://s.example" (.ok 301 "text/html" "" "hello" []) ≠
      (("", []) : String × List String) := by
  refine ⟨by decide, by decide⟩

/-- C6 amended.  On a timeout, a connection error, or a status code that
`raise_for_status` raises on (4xx/5xx), `crawl_page` catches the
exception and returns empty page text and no document links; it never
propagates the exception. -/
theorem crawl_page_failure (url : String) (o : HttpOutcome)
    (h : crawlFails o = true) : crawl_page url o = ("", []) := by
  cases o with
  | err => rfl
  | ok status ct body pt hrefs =>
    simp only [crawlFails] at h
    simp only [crawl_page]
    rw [if_pos h]

/-- Witness for the amended C6: a 404 and a network error. -/
theorem crawl_page_failure_witness :
    crawl_page "http://s.example" (.ok 404 "text/html" "x" "y" ["a.pdf"]) = ("", []) ∧
    crawl_page "http://s.example" .err = ("", []) :=
  ⟨crawl_page_failure _ _ (by decide), crawl_page_failure _ _ (by decide)⟩

/-! ## Claim C5 -/

/-- C5 counterexample.  A page at `https://a.gov/page` whose HTML links
`report.pdf` twice yields the resolved URL twice in `document_links`:
`crawl_page` performs no deduplication. -/
theorem crawl_page_duplicate_links :
    (crawl_page "https://a.gov/page"
      (.ok 200 "text/html" "" "Annual Report" ["report.pdf", "report.pdf"])).2 =
      ["https://a.gov/report.pdf", "https://a.gov/report.pdf"] ∧
    ¬ (crawl_page "https://a.gov/page"
      (.ok 200 "text/html" "" "Annual Report" ["report.pdf", "report.pdf"])).2.Nodup := by
  refine ⟨by decide, by decide⟩

/-- C5 amended.  The link list is accumulated href by href with no
cross-href deduplication: the links collected from a concatenation of
href lists are the concatenation of the links collected from each part,
so repeated hrefs yield repeated document links. -/
theorem addLinks_append (base : String) (hs1 hs2 l1 l2 : List String)
    (h1 : addLinks base hs1 = some l1) (h2 : addLinks base hs2 = some l2) :
    addLinks base (hs1 ++ hs2) = some (l1 ++ l2) := by
  induction hs1 generalizing l1 with
  | nil =>
    simp only [addLinks] at h1
    obtain rfl := Option.some.inj h1
    simpa using h2
  | cons h t ih =>
    cases hn : normalize_url base h with
    | none => simp only [addLinks, hn] at h1; exact Option.noConfusion h1
    | some full =>
      simp only [addLinks, hn] at h1
      cases ht : addLinks base t with
      | none => simp only [ht] at h1; exact Option.noConfusion h1
      | some rest =>
        simp only [ht] at h1
        obtain rfl := Option.some.inj h1
        show addLinks base (h :: (t ++ hs2)) = _
        simp only [addLinks, hn, ih rest ht]
        split <;> simp

/-- Witness for the amended C5: the same href processed in two batches. -/
theorem addLinks_append_witness :
    addLinks "https://a.gov/page" (["report.pdf"] ++ ["report.pdf"]) =
      some (["https://a.gov/report.pdf"] ++ ["https://a.gov/report.pdf"]) :=
  addLinks_append "https://a.gov/page" ["report.pdf"] ["report.pdf"] _ _
    (by decide) (by decide)

/-! ## Claim C9 -/

theorem addLinks_valid (base : String) :
    ∀ hs ls, addLinks base hs = some ls → ∀ u ∈ ls, is_valid_url u = true := by
  intro hs
  induction hs with
  | nil =>
    intro ls h u hu
    simp only [addLinks] at h
    obtain rfl := Option.some.inj h
    simp at hu
  | cons h t ih =>
    intro ls hl u hu
    cases hn : normalize_url base h with
    | none => simp only [addLinks, hn] at hl; exact Option.noConfusion hl
    | some full =>
      simp only [addLinks, hn] at hl
      cases ht : addLinks base t with
      | none => simp only [ht] at hl; exact Option.noConfusion hl
      | some rest =>
        simp only [ht] at hl
        obtain rfl := Option.some.inj hl
        by_cases hc : full ≠ "" ∧ is_valid_url full = true
        · rw [if_pos hc] at hu
          rcases List.mem_cons.mp hu with rfl | hu
          · exact hc.2
          · exact ih rest ht u hu
        · rw [if_neg hc] at hu
          exact ih rest ht u hu

/-- C9.  Every URL in the document-link list of `crawl_page` satisfies
`is_valid_url`: resolved hrefs are gated on `is_valid_url` before being
collected, and the direct-document branch returns the crawled URL itself
(which must be valid for `requests.get` to have succeeded — invalid URLs
make `requests.get` raise `MissingSchema`, landing in the exception
branch). -/
theorem crawl_page_links_valid (url : String) (o : HttpOutcome)
    (hurl : is_valid_url url = true) :
    ∀ u ∈ (crawl_page url o).2, is_valid_url u = true := by
  intro u hu
  cases o with
  | err => simp [crawl_page] at hu
  | ok status ct body pt hrefs =>
    simp only [crawl_page] at hu
    by_cases h1 : raisesForStatus status = true
    · rw [if_pos h1] at hu
      simp at hu
    · rw [if_neg h1] at hu
      by_cases h2 : docMimes.any (fun m => containsSub m (lowerS ct)) = true
      · rw [if_pos h2] at hu
        simp at hu
        subst hu
        exact hurl
      · rw [if_neg h2] at hu
        by_cases h3 : containsSub "text/plain" (lowerS ct) = true
        · rw [if_pos h3] at hu
          simp at hu
        · rw [if_neg h3] at hu
          cases hal : addLinks url hrefs with
          | none =>
            simp only [hal] at hu
            simp at hu
          | some links =>
            simp only [hal] at hu
            have hu2 : u ∈ links := List.mem_of_mem_filter (by simpa using hu)
            exact addLinks_valid url hrefs links hal u hu2

/-- Witness for C9 at a concrete crawl. -/
theorem crawl_page_links_valid_witness :
    is_valid_url "https://a.gov/report.pdf" = true :=
  crawl_page_links_valid "https://a.gov/page"
    (.ok 200 "text/html" "" "Annual Report" ["report.pdf"]) (by decide)
    "https://a.gov/report.pdf" (by decide)

end Scraper
